import Mathlib

/-!
Shallow embedding of the bun-sqlite-migrator orchestrator (src/index.ts).

The migrator's own logic (state resolution, up/down batch execution, result
assembly) is translated directly.  External collaborators are modelled
explicitly:

* The SQLite database is a `Db` value: the migration log table (a list of
  `(name, timestamp)` rows plus a table-exists flag), a clock supplying the
  strings produced by `new Date().toISOString()` (`tsOf` applied to a
  monotonically consumed counter), and an opaque `user` component standing
  for all other tables a migration may touch.
* A migration operation (`up` / `down`) is a function from the user state to
  `Except E`: a `.error` models the operation throwing.
* SQL `ORDER BY timestamp, name` is binary (memcmp) comparison of the two
  text columns; on the (name, timestamp) strings this is codepoint-wise
  comparison, modelled by `listCharLe` on `String.data`.
* `Object.keys(..).sort()` compares strings by UTF-16 code units.  On
  supplementary-plane characters this differs from codepoint order (and so
  from SQLite's memcmp): U+10000 encodes as the surrogates D800 DC00 and
  sorts before U+FFFF in JS, after it in memcmp.  It is modelled by `jsLe`
  on the UTF-16 code units of `String.data`.
* `db.transaction(fn).immediate()` runs `fn`; if `fn` throws, all database
  changes made inside are rolled back and the error is rethrown.  In the
  embedding a computation inside the transaction has type
  `Except (Thrown ..) (.. × Db σ)`; an `.error` result carries no database,
  and the caller (`migrate`) resumes from the pre-transaction `Db`, which is
  exactly SQLite's rollback.
* TS `throw` of a non-`MigrationResultSetError` value is `Thrown.plain`,
  `throw new MigrationResultSetError(rs)` is `Thrown.resultSetErr rs`.
  The `undefined.field` TypeError produced by an out-of-bounds index (the
  `migrations[i]!` in `ensureMigrationsInOrder`, the `find(..)!` in
  `migrateDown`) is `MError.boundsError`.
-/

/-- Codepoint-wise (memcmp) ordering on character lists: the comparison
SQLite's BINARY collation applies to the UTF-8 text of the log columns. -/
def listCharLe : List Char → List Char → Bool
  | [], _ => true
  | _ :: _, [] => false
  | a :: as, b :: bs =>
    if a.toNat < b.toNat then true
    else if b.toNat < a.toNat then false
    else listCharLe as bs

/-- String comparison via `listCharLe` on the underlying character data. -/
def strLe (a b : String) : Bool := listCharLe a.data b.data

/-- The UTF-16 code units of a character: itself below U+10000, otherwise
its surrogate pair. -/
def utf16Units (c : Char) : List Nat :=
  if c.toNat < 65536 then [c.toNat]
  else [55296 + (c.toNat - 65536) / 1024, 56320 + (c.toNat - 65536) % 1024]

/-- The UTF-16 code-unit sequence of a character list. -/
def utf16Of : List Char → List Nat
  | [] => []
  | c :: cs => utf16Units c ++ utf16Of cs

/-- Lexicographic comparison of code-unit sequences. -/
def natListLe : List Nat → List Nat → Bool
  | [], _ => true
  | _ :: _, [] => false
  | a :: as, b :: bs =>
    if a < b then true
    else if b < a then false
    else natListLe as bs

/-- JS string comparison (the default `Array.prototype.sort` order):
lexicographic on UTF-16 code units. -/
def jsLe (a b : String) : Bool := natListLe (utf16Of a.data) (utf16Of b.data)

/-- Direction of a migration run (TS `MigrationDirection`). -/
inductive MigrationDirection where
  | Up
  | Down
deriving DecidableEq, Repr

/-- Per-migration execution status (TS `MigrationResult.status`). -/
inductive MigrationStatus where
  | Success
  | Error
  | NotExecuted
deriving DecidableEq, Repr

/-- TS `MigrationResult`. -/
structure MigrationResult where
  migrationName : String
  direction : MigrationDirection
  status : MigrationStatus
deriving DecidableEq, Repr

/-- The values the migrator can throw (other than `MigrationResultSetError`):
an error raised by user code (a migration operation or the provider), the two
`corrupted migrations` errors thrown during state resolution, and the
TypeError raised by reading a field of `undefined` after an out-of-bounds
array access. -/
inductive MError (E : Type) where
  | user : E → MError E
  | missingMigration : String → MError E
  | migrationOutOfOrder : String → Nat → MError E
  | boundsError : MError E
deriving DecidableEq

/-- TS `MigrationResultSet`: both fields optional (absent = `none`). -/
structure MigrationResultSet (E : Type) where
  error : Option (MError E) := none
  results : Option (List MigrationResult) := none
deriving DecidableEq

/-- A thrown JS value as seen by `migrate`'s catch: either a plain error or a
`MigrationResultSetError` wrapping a partial result set. -/
inductive Thrown (E : Type) where
  | plain : MError E → Thrown E
  | resultSetErr : MigrationResultSet E → Thrown E

/-- TS `Migration`: a mandatory forward operation and an optional backward
operation, acting on the database's user state and possibly throwing. -/
structure Migration (σ E : Type) where
  up : σ → Except E σ
  down : Option (σ → Except E σ) := none

/-- TS `NamedMigration`: a migration together with its name. -/
structure NamedMigration (σ E : Type) where
  name : String
  up : σ → Except E σ
  down : Option (σ → Except E σ) := none

/-- One row of the persisted migration log table
(`name varchar primary key, timestamp varchar`). -/
structure LogRow where
  name : String
  timestamp : String
deriving DecidableEq, Repr

/-- The modelled SQLite database: the migration log table, the clock behind
`new Date().toISOString()` (`tsOf` is the timestamp string produced at tick
`clock`; each insert consumes one tick), and the opaque rest of the schema. -/
structure Db (σ : Type) where
  tableExists : Bool
  log : List LogRow
  clock : Nat
  tsOf : Nat → String
  user : σ

/-- Constructor properties of `Migrator` that the orchestration logic reads:
the provider (whose `getMigrations` may itself throw, modelled by `.error`)
and the unordered-migrations allowance.  The migration table name only picks
which table `Db.log` denotes, so it has no separate representation. -/
structure MigratorProps (σ E : Type) where
  getMigrations : Except E (List (NamedMigration σ E))
  allowUnorderedMigrations : Bool := false

/-- TS `MigrationState` as assembled by `getState`. -/
structure MigrationState (σ E : Type) where
  migrations : List (NamedMigration σ E)
  executedMigrations : List String
  lastMigration : Option String
  pendingMigrations : List (NamedMigration σ E)

/-- The `step` argument: a JS number, `Infinity` for `migrateToLatest`. -/
inductive StepCount where
  | num : Int → StepCount
  | inf : StepCount

/-- TS `step <= 0`. -/
def StepCount.isNonpositive : StepCount → Bool
  | .num n => n ≤ 0
  | .inf => false

/-- TS `list.slice(0, step)`. -/
def StepCount.slice : StepCount → List α → List α
  | .num n, l => l.take n.toNat
  | .inf, l => l

/-- `create table if not exists ...`: a fresh table is empty; an existing one
keeps its rows (TS `ensureMigrationTableExists`). -/
def ensureMigrationTableExists (db : Db σ) : Db σ :=
  if db.tableExists then db else { db with tableExists := true, log := [] }

/-- The `order by timestamp, name` comparison on log rows. -/
def rowLe (r s : LogRow) : Bool :=
  if r.timestamp = s.timestamp then strLe r.name s.name
  else strLe r.timestamp s.timestamp

/-- `rowLe` as a relation, for use with `List.insertionSort`. -/
def RowLe (r s : LogRow) : Prop := rowLe r s = true

instance : DecidableRel RowLe := fun r s =>
  inferInstanceAs (Decidable (rowLe r s = true))

/-- The log rows as returned by
`select name from .. order by timestamp, name`. -/
def sortedLog (log : List LogRow) : List LogRow := log.insertionSort RowLe

/-- TS `getExecutedMigrations`: names of executed migrations ordered by
`(timestamp, name)`. -/
def getExecutedMigrations (db : Db σ) : List String :=
  (sortedLog db.log).map (·.name)

/-- Name ordering on migrations, for use with `List.insertionSort`: the
order of `Object.keys(..).sort()`, i.e. UTF-16 code-unit comparison. -/
def NameLe (a b : NamedMigration σ E) : Prop := jsLe a.name b.name = true

instance : DecidableRel (@NameLe σ E) := fun a b =>
  inferInstanceAs (Decidable (jsLe a.name b.name = true))

/-- TS `resolveMigrations`: the provider's mapping, sorted ascending by name
in JS sort order (UTF-16 code units).  (The TS code sorts `Object.keys` and
reattaches each record to its key; the mapping is represented here as the
list of named records directly.) -/
def resolveMigrations (allMigrations : List (NamedMigration σ E)) :
    List (NamedMigration σ E) :=
  allMigrations.insertionSort NameLe

/-- TS `getPendingMigrations`:
`migrations.filter(m => !executedMigrations.includes(m.name))`. -/
def getPendingMigrations (migrations : List (NamedMigration σ E))
    (executedMigrations : List String) : List (NamedMigration σ E) :=
  migrations.filter fun migration => !(executedMigrations.contains migration.name)

/-- TS `ensureNoMissingMigrations`: every executed name must occur in the
migration list, else throw the `corrupted migrations: .. is missing` error. -/
def ensureNoMissingMigrations (migrations : List (NamedMigration σ E)) :
    List String → Except (MError E) Unit
  | [] => .ok ()
  | executed :: rest =>
    if migrations.any fun m => m.name == executed then
      ensureNoMissingMigrations migrations rest
    else
      .error (.missingMigration executed)

/-- TS `ensureMigrationsInOrder`: walk index `i` over `executedMigrations`,
comparing with `migrations[i]!.name`.  Running past the end of `migrations`
reads `.name` of `undefined` (a TypeError, `boundsError` here); a name
mismatch throws the `corrupted migrations: .. to be at index i` error. -/
def ensureMigrationsInOrder (i : Nat) :
    List (NamedMigration σ E) → List String → Except (MError E) Unit
  | _, [] => .ok ()
  | [], _ :: _ => .error .boundsError
  | migration :: ms, executed :: rest =>
    if migration.name == executed then ensureMigrationsInOrder (i + 1) ms rest
    else .error (.migrationOutOfOrder executed i)

/-- The guarded order check of TS `getState`:
`if (!this.allowUnorderedMigrations) { this.ensureMigrationsInOrder(..) }`. -/
def checkOrder (P : MigratorProps σ E) (migrations : List (NamedMigration σ E))
    (executedMigrations : List String) : Except (MError E) Unit :=
  if P.allowUnorderedMigrations then .ok ()
  else ensureMigrationsInOrder 0 migrations executedMigrations

/-- TS `getState`: resolve the migration list, read the executed log, check
the two history invariants (the order check only when unordered migrations
are not allowed), and assemble the state. -/
def getState (P : MigratorProps σ E) (db : Db σ) :
    Except (MError E) (MigrationState σ E) :=
  match P.getMigrations with
  | .error e => .error (.user e)
  | .ok allMigrations =>
    let migrations := resolveMigrations allMigrations
    let executedMigrations := getExecutedMigrations db
    match ensureNoMissingMigrations migrations executedMigrations with
    | .error e => .error e
    | .ok _ =>
      match checkOrder P migrations executedMigrations with
      | .error e => .error e
      | .ok _ =>
        .ok { migrations := migrations
              executedMigrations := executedMigrations
              lastMigration := executedMigrations.getLast?
              pendingMigrations :=
                getPendingMigrations migrations executedMigrations }

/-- The loop body of TS `migrateUp`: run each pending migration's `up`, then
insert `(name, new Date().toISOString())` into the log and record `Success`;
on a throw, record `Error` and throw a `MigrationResultSetError` whose
results are the accumulated entries followed by the error entry and the
still-`NotExecuted` prepopulated tail. -/
def migrateUpLoop (db : Db σ) : List (NamedMigration σ E) →
    List MigrationResult → Except (Thrown E) (List MigrationResult × Db σ)
  | [], results => .ok (results, db)
  | migration :: rest, results =>
    match migration.up db.user with
    | .ok u =>
      migrateUpLoop
        { db with
          user := u
          log := db.log ++ [⟨migration.name, db.tsOf db.clock⟩]
          clock := db.clock + 1 }
        rest (results ++ [⟨migration.name, .Up, .Success⟩])
    | .error e =>
      .error (.resultSetErr
        { error := some (.user e)
          results := some (results ++ ⟨migration.name, .Up, .Error⟩ ::
            rest.map fun m => ⟨m.name, .Up, .NotExecuted⟩) })

/-- TS `migrateUp`: run the first `step` pending migrations in order. -/
def migrateUp (db : Db σ) (state : MigrationState σ E) (step : StepCount) :
    Except (Thrown E) (MigrationResultSet E × Db σ) :=
  let migrationsToRun := step.slice state.pendingMigrations
  match migrateUpLoop db migrationsToRun [] with
  | .ok (results, db) => .ok ({ results := some results }, db)
  | .error t => .error t

/-- The candidate list of TS `migrateDown`:
`executedMigrations.slice().reverse().slice(0, step)`, each name resolved via
`state.migrations.find(it => it.name === name)!`.  A failed lookup leaves
`undefined` in the array, whose first field access throws a TypeError;
`none` here models that throw. -/
def buildRollback (state : MigrationState σ E) (step : StepCount) :
    Option (List (NamedMigration σ E)) :=
  (step.slice state.executedMigrations.reverse).mapM fun name =>
    state.migrations.find? fun m => m.name == name

/-- The loop body of TS `migrateDown`: a candidate without a `down` operation
is skipped (its prepopulated `NotExecuted` entry is kept and nothing is
deleted); otherwise run `down`, delete the log row by name and record
`Success`; on a throw, record `Error` and throw a `MigrationResultSetError`
as in the up loop. -/
def migrateDownLoop (db : Db σ) : List (NamedMigration σ E) →
    List MigrationResult → Except (Thrown E) (List MigrationResult × Db σ)
  | [], results => .ok (results, db)
  | migration :: rest, results =>
    match migration.down with
    | none =>
      migrateDownLoop db rest (results ++ [⟨migration.name, .Down, .NotExecuted⟩])
    | some down =>
      match down db.user with
      | .ok u =>
        migrateDownLoop
          { db with
            user := u
            log := db.log.filter fun r => !(r.name == migration.name) }
          rest (results ++ [⟨migration.name, .Down, .Success⟩])
      | .error e =>
        .error (.resultSetErr
          { error := some (.user e)
            results := some (results ++ ⟨migration.name, .Down, .Error⟩ ::
              rest.map fun m => ⟨m.name, .Down, .NotExecuted⟩) })

/-- TS `migrateDown`: roll back the `step` most recently executed
migrations. -/
def migrateDown (db : Db σ) (state : MigrationState σ E) (step : StepCount) :
    Except (Thrown E) (MigrationResultSet E × Db σ) :=
  match buildRollback state step with
  | none => .error (.plain .boundsError)
  | some migrationsToRollback =>
    match migrateDownLoop db migrationsToRollback [] with
    | .ok (results, db) => .ok ({ results := some results }, db)
    | .error t => .error t

/-- TS `runMigrations`: the body run inside
`db.transaction(() => ..).immediate()`.  An `.error` result is a throw out of
the transaction: SQLite rolls back, so no database accompanies it. -/
def runMigrations (P : MigratorProps σ E)
    (getMigrationDirectionAndStep :
      MigrationState σ E → MigrationDirection × StepCount) (db : Db σ) :
    Except (Thrown E) (MigrationResultSet E × Db σ) :=
  match getState P db with
  | .error e => .error (.plain e)
  | .ok state =>
    if state.migrations.length = 0 then .ok ({ results := some [] }, db)
    else
      let (direction, step) := getMigrationDirectionAndStep state
      if step.isNonpositive then .ok ({ results := some [] }, db)
      else
        match direction with
        | .Down => migrateDown db state step
        | .Up => migrateUp db state step

/-- TS `migrate`: ensure the log table exists, run the migrations inside the
transaction, and catch every throw — a `MigrationResultSetError` yields its
wrapped result set, anything else becomes `{ error }`.  The returned `Db` on
the catch path is the pre-transaction one (the transaction rolled back; the
table creation ran before the transaction and persists). -/
def migrate (P : MigratorProps σ E)
    (getMigrationDirectionAndStep :
      MigrationState σ E → MigrationDirection × StepCount) (db : Db σ) :
    Except (Thrown E) (MigrationResultSet E × Db σ) :=
  let db := ensureMigrationTableExists db
  match runMigrations P getMigrationDirectionAndStep db with
  | .ok r => .ok r
  | .error (.resultSetErr resultSet) => .ok (resultSet, db)
  | .error (.plain e) => .ok ({ error := some e }, db)

/-- TS `migrateToLatest`: `migrate(() => ({direction: "Up", step: Infinity}))`. -/
def migrateToLatest (P : MigratorProps σ E) (db : Db σ) :
    Except (Thrown E) (MigrationResultSet E × Db σ) :=
  migrate P (fun _ => (.Up, .inf)) db

/-- The log rows inserted by a successful up batch over `ms`, starting at
clock tick `c`. -/
def upRows (tsOf : Nat → String) : Nat → List (NamedMigration σ E) → List LogRow
  | _, [] => []
  | c, m :: rest => ⟨m.name, tsOf c⟩ :: upRows tsOf (c + 1) rest

/-- The result entry a completed down batch reports for a candidate:
`Success` if it has a backward operation (it was run), `NotExecuted` if it
was skipped. -/
def downResult (m : NamedMigration σ E) : MigrationResult :=
  match m.down with
  | some _ => ⟨m.name, .Down, .Success⟩
  | none => ⟨m.name, .Down, .NotExecuted⟩

/-- The names whose log rows a down batch over `cands` deletes. -/
def downedNames (cands : List (NamedMigration σ E)) : List String :=
  (cands.filter fun m => m.down.isSome).map (·.name)

/-- A corrupted-history error: one of the two `corrupted migrations` throws
of state resolution. -/
def IsCorrupted : MError E → Prop
  | .missingMigration _ => True
  | .migrationOutOfOrder _ _ => True
  | _ => False

/-- Concrete fixture: a migration with no backward operation. -/
def wMigA : NamedMigration Nat String :=
  ⟨"001_a", fun s => .ok (s + 1), none⟩

/-- Concrete fixture: a migration with a backward operation. -/
def wMigADown : NamedMigration Nat String :=
  ⟨"001_a", fun s => .ok (s + 1), some fun s => .ok (s - 1)⟩

/-- Concrete fixture: a second migration. -/
def wMigB : NamedMigration Nat String :=
  ⟨"002_b", fun s => .ok (s + 2), none⟩

/-- Concrete fixture: a migration whose forward operation throws. -/
def wMigBFail : NamedMigration Nat String :=
  ⟨"002_b", fun _ => .error "boom", none⟩

/-- Concrete fixture: a fresh database (no migration table yet). -/
def wDb0 : Db Nat := ⟨false, [], 0, fun _ => "ts", 0⟩

/-- Concrete fixture: a database whose log records `001_a`. -/
def wDb1 : Db Nat := ⟨true, [⟨"001_a", "t1"⟩], 5, fun _ => "ts", 3⟩

/-- Concrete fixture: a migrator over `001_a` (with down) and `002_b`. -/
def wPab : MigratorProps Nat String := ⟨.ok [wMigADown, wMigB], false⟩

/-- Concrete fixture: a migrator whose second migration fails. -/
def wPfail : MigratorProps Nat String := ⟨.ok [wMigA, wMigBFail], false⟩

/-- Concrete fixture: a migrator with an empty migration source. -/
def wPempty : MigratorProps Nat String := ⟨.ok [], false⟩

/-- Concrete fixture: a migrator over `001_a` alone. -/
def wPa : MigratorProps Nat String := ⟨.ok [wMigA], false⟩

/-- Concrete fixture: the direction/step request of `migrateToLatest`. -/
def wUpInf : MigrationState Nat String → MigrationDirection × StepCount :=
  fun _ => (.Up, .inf)

/-- Concrete fixture: a one-step down request. -/
def wDown1 : MigrationState Nat String → MigrationDirection × StepCount :=
  fun _ => (.Down, .num 1)

/-- Concrete fixture: a state targeting `001_a` (no backward operation) for
rollback. -/
def wStateSkip : MigrationState Nat String :=
  ⟨[wMigA], ["001_a"], some "001_a", []⟩

/-- Concrete fixture: a migration named U+10000 (a supplementary-plane
character, whose UTF-16 surrogates sort before U+FFFF in JS order but whose
UTF-8 bytes sort after it in memcmp order). -/
def cMigHi : NamedMigration Nat String :=
  ⟨String.mk [Char.ofNat 65536], fun s => .ok s, none⟩

/-- Concrete fixture: a migration named U+FFFF. -/
def cMigLo : NamedMigration Nat String := ⟨"\uFFFF", fun s => .ok s, none⟩

/-- Concrete fixture: a migrator over the two exotically named
migrations. -/
def cPsup : MigratorProps Nat String := ⟨.ok [cMigLo, cMigHi], false⟩

/-- Concrete fixture: the database after the first `migrateToLatest` over
`cPsup` starting from `wDb0`: both migrations logged with the same
timestamp, in JS name order. -/
def cDb1 : Db Nat :=
  ⟨true, [⟨String.mk [Char.ofNat 65536], "ts"⟩, ⟨"\uFFFF", "ts"⟩], 2,
    fun _ => "ts", 0⟩

theorem listCharLe_refl : ∀ xs : List Char, listCharLe xs xs = true
  | [] => rfl
  | a :: as => by
    unfold listCharLe
    rw [if_neg (lt_irrefl _), if_neg (lt_irrefl _)]
    exact listCharLe_refl as

theorem listCharLe_total :
    ∀ xs ys : List Char, listCharLe xs ys = true ∨ listCharLe ys xs = true
  | [], _ => .inl rfl
  | _ :: _, [] => .inr rfl
  | a :: as, b :: bs => by
    unfold listCharLe
    rcases Nat.lt_trichotomy a.toNat b.toNat with h | h | h
    · left; rw [if_pos h]
    · rw [if_neg (by omega), if_neg (by omega), if_neg (by omega),
        if_neg (by omega)]
      exact listCharLe_total as bs
    · right; rw [if_pos h]

theorem listCharLe_trans : ∀ xs ys zs : List Char,
    listCharLe xs ys = true → listCharLe ys zs = true →
    listCharLe xs zs = true
  | [], _, _, _, _ => rfl
  | _ :: _, [], _, h, _ => by simp [listCharLe] at h
  | _ :: _, _ :: _, [], _, h => by simp [listCharLe] at h
  | a :: as, b :: bs, c :: cs, h1, h2 => by
    unfold listCharLe at h1 h2 ⊢
    rcases Nat.lt_trichotomy a.toNat b.toNat with hab | hab | hab
    · rcases Nat.lt_trichotomy b.toNat c.toNat with hbc | hbc | hbc
      · rw [if_pos (by omega)]
      · rw [if_pos (by omega)]
      · rw [if_neg (by omega), if_pos hbc] at h2
        exact Bool.noConfusion h2
    · rw [if_neg (by omega), if_neg (by omega)] at h1
      rcases Nat.lt_trichotomy b.toNat c.toNat with hbc | hbc | hbc
      · rw [if_pos (by omega)]
      · rw [if_neg (by omega), if_neg (by omega)] at h2 ⊢
        exact listCharLe_trans as bs cs h1 h2
      · rw [if_neg (by omega), if_pos hbc] at h2
        exact Bool.noConfusion h2
    · rw [if_neg (by omega), if_pos hab] at h1
      exact Bool.noConfusion h1

theorem listCharLe_antisymm : ∀ xs ys : List Char,
    listCharLe xs ys = true → listCharLe ys xs = true → xs = ys
  | [], [], _, _ => rfl
  | [], _ :: _, _, h => by simp [listCharLe] at h
  | _ :: _, [], h, _ => by simp [listCharLe] at h
  | a :: as, b :: bs, h1, h2 => by
    unfold listCharLe at h1 h2
    rcases Nat.lt_trichotomy a.toNat b.toNat with hab | hab | hab
    · rw [if_neg (by omega), if_pos hab] at h2
      exact Bool.noConfusion h2
    · rw [if_neg (by omega), if_neg (by omega)] at h1 h2
      have hc : a = b := Char.eq_of_val_eq (UInt32.toNat.inj hab)
      rw [hc, listCharLe_antisymm as bs h1 h2]
    · rw [if_neg (by omega), if_pos hab] at h1
      exact Bool.noConfusion h1

theorem strLe_refl (a : String) : strLe a a = true := listCharLe_refl _

theorem strLe_total (a b : String) : strLe a b = true ∨ strLe b a = true :=
  listCharLe_total _ _

theorem strLe_trans {a b c : String} (h1 : strLe a b = true)
    (h2 : strLe b c = true) : strLe a c = true :=
  listCharLe_trans _ _ _ h1 h2

theorem strLe_antisymm {a b : String} (h1 : strLe a b = true)
    (h2 : strLe b a = true) : a = b := by
  cases a; cases b
  exact congrArg String.mk (listCharLe_antisymm _ _ h1 h2)

theorem rowLe_total (r s : LogRow) : RowLe r s ∨ RowLe s r := by
  unfold RowLe rowLe
  by_cases h : r.timestamp = s.timestamp
  · rw [if_pos h, if_pos h.symm]; exact strLe_total _ _
  · rw [if_neg h, if_neg (Ne.symm h)]; exact strLe_total _ _

theorem rowLe_trans {r s t : LogRow} (h1 : RowLe r s) (h2 : RowLe s t) :
    RowLe r t := by
  unfold RowLe rowLe at h1 h2 ⊢
  by_cases hrs : r.timestamp = s.timestamp <;>
    by_cases hst : s.timestamp = t.timestamp
  · rw [if_pos hrs] at h1
    rw [if_pos hst] at h2
    rw [if_pos (hrs.trans hst)]
    exact strLe_trans h1 h2
  · rw [if_neg hst] at h2
    rw [if_neg (hrs ▸ hst), hrs]
    exact h2
  · rw [if_neg hrs] at h1
    rw [if_neg (fun h => hrs (h.trans hst.symm)), ← hst]
    exact h1
  · rw [if_neg hrs] at h1
    rw [if_neg hst] at h2
    by_cases hrt : r.timestamp = t.timestamp
    · exact absurd (strLe_antisymm h1 (hrt ▸ h2)) hrs
    · rw [if_neg hrt]
      exact strLe_trans h1 h2

theorem rowLe_antisymm {r s : LogRow} (h1 : RowLe r s) (h2 : RowLe s r) :
    r = s := by
  unfold RowLe rowLe at h1 h2
  by_cases h : r.timestamp = s.timestamp
  · rw [if_pos h] at h1
    rw [if_pos h.symm] at h2
    obtain ⟨rn, rt⟩ := r
    obtain ⟨sn, st⟩ := s
    simp only at h h1 h2
    rw [h, strLe_antisymm h1 h2]
  · rw [if_neg h] at h1
    rw [if_neg (Ne.symm h)] at h2
    exact absurd (strLe_antisymm h1 h2) h

theorem natListLe_total :
    ∀ xs ys : List Nat, natListLe xs ys = true ∨ natListLe ys xs = true
  | [], _ => .inl rfl
  | _ :: _, [] => .inr rfl
  | a :: as, b :: bs => by
    unfold natListLe
    rcases Nat.lt_trichotomy a b with h | h | h
    · left; rw [if_pos h]
    · rw [if_neg (by omega), if_neg (by omega), if_neg (by omega),
        if_neg (by omega)]
      exact natListLe_total as bs
    · right; rw [if_pos h]

theorem natListLe_trans : ∀ xs ys zs : List Nat,
    natListLe xs ys = true → natListLe ys zs = true →
    natListLe xs zs = true
  | [], _, _, _, _ => rfl
  | _ :: _, [], _, h, _ => by simp [natListLe] at h
  | _ :: _, _ :: _, [], _, h => by simp [natListLe] at h
  | a :: as, b :: bs, c :: cs, h1, h2 => by
    unfold natListLe at h1 h2 ⊢
    rcases Nat.lt_trichotomy a b with hab | hab | hab
    · rcases Nat.lt_trichotomy b c with hbc | hbc | hbc
      · rw [if_pos (by omega)]
      · rw [if_pos (by omega)]
      · rw [if_neg (by omega), if_pos hbc] at h2
        exact Bool.noConfusion h2
    · rw [if_neg (by omega), if_neg (by omega)] at h1
      rcases Nat.lt_trichotomy b c with hbc | hbc | hbc
      · rw [if_pos (by omega)]
      · rw [if_neg (by omega), if_neg (by omega)] at h2 ⊢
        exact natListLe_trans as bs cs h1 h2
      · rw [if_neg (by omega), if_pos hbc] at h2
        exact Bool.noConfusion h2
    · rw [if_neg (by omega), if_pos hab] at h1
      exact Bool.noConfusion h1

theorem jsLe_total (a b : String) : jsLe a b = true ∨ jsLe b a = true :=
  natListLe_total _ _

theorem jsLe_trans {a b c : String} (h1 : jsLe a b = true)
    (h2 : jsLe b c = true) : jsLe a c = true :=
  natListLe_trans _ _ _ h1 h2

theorem nameLe_total (a b : NamedMigration σ E) : NameLe a b ∨ NameLe b a :=
  jsLe_total _ _

theorem nameLe_trans {a b c : NamedMigration σ E} (h1 : NameLe a b)
    (h2 : NameLe b c) : NameLe a c :=
  jsLe_trans h1 h2

theorem sortedLog_perm (log : List LogRow) : (sortedLog log).Perm log :=
  List.perm_insertionSort _ _

theorem sortedLog_sorted (log : List LogRow) :
    (sortedLog log).Pairwise RowLe := by
  haveI : IsTotal LogRow RowLe := ⟨rowLe_total⟩
  haveI : IsTrans LogRow RowLe := ⟨fun _ _ _ => rowLe_trans⟩
  exact List.sorted_insertionSort _ _

theorem resolveMigrations_perm (l : List (NamedMigration σ E)) :
    (resolveMigrations l).Perm l :=
  List.perm_insertionSort _ _

theorem resolveMigrations_sorted (l : List (NamedMigration σ E)) :
    (resolveMigrations l).Pairwise NameLe := by
  haveI : IsTotal (NamedMigration σ E) NameLe := ⟨nameLe_total⟩
  haveI : IsTrans (NamedMigration σ E) NameLe := ⟨fun _ _ _ => nameLe_trans⟩
  exact List.sorted_insertionSort _ _

theorem migrateUpLoop_ok : ∀ (ms : List (NamedMigration σ E)) (db : Db σ)
    (acc res : List MigrationResult) (db2 : Db σ),
    migrateUpLoop db ms acc = .ok (res, db2) →
    res = acc ++ ms.map (fun m => ⟨m.name, .Up, .Success⟩) ∧
    db2.log = db.log ++ upRows db.tsOf db.clock ms ∧
    db2.clock = db.clock + ms.length ∧
    db2.tableExists = db.tableExists ∧
    db2.tsOf = db.tsOf
  | [], db, acc, res, db2, h => by
    simp only [migrateUpLoop, Except.ok.injEq, Prod.mk.injEq] at h
    obtain ⟨h1, h2⟩ := h
    subst h1; subst h2
    simp [upRows]
  | m :: rest, db, acc, res, db2, h => by
    unfold migrateUpLoop at h
    split at h
    next u hup =>
      obtain ⟨h1, h2, h3, h4, h5⟩ := migrateUpLoop_ok rest _ _ _ _ h
      refine ⟨?_, ?_, ?_, h4, h5⟩
      · simpa using h1
      · simpa [upRows] using h2
      · simp only [List.length_cons] at h3 ⊢
        omega
    next e hup => exact absurd h (by simp)

theorem migrateUpLoop_err : ∀ (ms : List (NamedMigration σ E)) (db : Db σ)
    (acc : List MigrationResult) (t : Thrown E),
    migrateUpLoop db ms acc = .error t →
    ∃ (pre : List (NamedMigration σ E)) (m : NamedMigration σ E)
      (rest : List (NamedMigration σ E)) (e : E),
    ms = pre ++ m :: rest ∧
    t = .resultSetErr
      { error := some (.user e)
        results := some (acc ++ pre.map (fun m => ⟨m.name, .Up, .Success⟩) ++
          ⟨m.name, .Up, .Error⟩ ::
            rest.map fun m => ⟨m.name, .Up, .NotExecuted⟩) }
  | [], db, acc, t, h => by simp [migrateUpLoop] at h
  | m :: rest, db, acc, t, h => by
    unfold migrateUpLoop at h
    split at h
    next u hup =>
      obtain ⟨pre, m2, rest2, e, h1, h2⟩ := migrateUpLoop_err rest _ _ _ h
      exact ⟨m :: pre, m2, rest2, e, by rw [h1]; rfl, by rw [h2]; simp⟩
    next e hup =>
      refine ⟨[], m, rest, e, rfl, ?_⟩
      simp only [Except.error.injEq] at h
      rw [← h]
      simp

theorem migrateDownLoop_ok : ∀ (cands : List (NamedMigration σ E)) (db : Db σ)
    (acc res : List MigrationResult) (db2 : Db σ),
    migrateDownLoop db cands acc = .ok (res, db2) →
    res = acc ++ cands.map downResult ∧
    db2.log = db.log.filter (fun r => !((downedNames cands).contains r.name)) ∧
    db2.clock = db.clock ∧
    db2.tableExists = db.tableExists ∧
    db2.tsOf = db.tsOf
  | [], db, acc, res, db2, h => by
    simp only [migrateDownLoop, Except.ok.injEq, Prod.mk.injEq] at h
    obtain ⟨h1, h2⟩ := h
    subst h1; subst h2
    simp [downedNames]
  | m :: rest, db, acc, res, db2, h => by
    unfold migrateDownLoop at h
    split at h
    next hdown =>
      obtain ⟨h1, h2, h3, h4, h5⟩ := migrateDownLoop_ok rest _ _ _ _ h
      refine ⟨by simpa [downResult, hdown] using h1, ?_, h3, h4, h5⟩
      rw [h2]
      simp [downedNames, List.filter_cons, hdown]
    next down hdown =>
      split at h
      next u hrun =>
        obtain ⟨h1, h2, h3, h4, h5⟩ := migrateDownLoop_ok rest _ _ _ _ h
        refine ⟨by simpa [downResult, hdown] using h1, ?_, h3, h4, h5⟩
        rw [h2]
        simp only [List.filter_filter, downedNames, List.filter_cons, hdown,
          Option.isSome_some, List.map_cons, List.contains_cons]
        congr 1
        funext r
        cases hr : r.name == m.name <;> simp [hr]
      next e hrun => exact absurd h (by simp)

theorem migrateDownLoop_err : ∀ (cands : List (NamedMigration σ E)) (db : Db σ)
    (acc : List MigrationResult) (t : Thrown E),
    migrateDownLoop db cands acc = .error t →
    ∃ (pre : List (NamedMigration σ E)) (m : NamedMigration σ E)
      (rest : List (NamedMigration σ E)) (e : E),
    cands = pre ++ m :: rest ∧
    m.down.isSome = true ∧
    t = .resultSetErr
      { error := some (.user e)
        results := some (acc ++ pre.map downResult ++
          ⟨m.name, .Down, .Error⟩ ::
            rest.map fun m => ⟨m.name, .Down, .NotExecuted⟩) }
  | [], db, acc, t, h => by simp [migrateDownLoop] at h
  | m :: rest, db, acc, t, h => by
    unfold migrateDownLoop at h
    split at h
    next hdown =>
      obtain ⟨pre, m2, rest2, e, h1, h2, h3⟩ := migrateDownLoop_err rest _ _ _ h
      refine ⟨m :: pre, m2, rest2, e, by rw [h1]; rfl, h2, ?_⟩
      rw [h3]
      simp [downResult, hdown]
    next down hdown =>
      split at h
      next u hrun =>
        obtain ⟨pre, m2, rest2, e, h1, h2, h3⟩ :=
          migrateDownLoop_err rest _ _ _ h
        refine ⟨m :: pre, m2, rest2, e, by rw [h1]; rfl, h2, ?_⟩
        rw [h3]
        simp [downResult, hdown]
      next e hrun =>
        refine ⟨[], m, rest, e, rfl, by rw [hdown]; rfl, ?_⟩
        simp only [Except.error.injEq] at h
        rw [← h]
        simp

theorem exceptUnit_cases (x : Except (MError E) Unit) :
    x = .ok () ∨ ∃ e, x = .error e := by
  match x with
  | .ok () => exact .inl rfl
  | .error e => exact .inr ⟨e, rfl⟩

theorem ensureNoMissingMigrations_ok_iff
    (migrations : List (NamedMigration σ E)) :
    ∀ execs : List String,
    ensureNoMissingMigrations migrations execs = .ok () ↔
      ∀ e ∈ execs, ∃ m ∈ migrations, m.name = e
  | [] => by simp [ensureNoMissingMigrations]
  | executed :: rest => by
    unfold ensureNoMissingMigrations
    split
    next hany =>
      rw [ensureNoMissingMigrations_ok_iff migrations rest]
      rw [List.any_eq_true] at hany
      obtain ⟨m, hm, hname⟩ := hany
      constructor
      · intro h e he
        rcases List.mem_cons.mp he with he | he
        · exact ⟨m, hm, by rw [he]; exact eq_of_beq hname⟩
        · exact h e he
      · intro h e he
        exact h e (List.mem_cons_of_mem _ he)
    next hany =>
      simp only [Bool.not_eq_true, List.any_eq_false] at hany
      constructor
      · intro h
        exact absurd h (by simp)
      · intro h
        obtain ⟨m, hm, hname⟩ := h executed (List.mem_cons_self _ _)
        exact absurd (by simpa using hname) (by simpa using hany m hm)

theorem ensureNoMissingMigrations_err
    (migrations : List (NamedMigration σ E)) :
    ∀ (execs : List String) (er : MError E),
    ensureNoMissingMigrations migrations execs = .error er →
    ∃ n, er = .missingMigration n
  | [], er, h => by simp [ensureNoMissingMigrations] at h
  | executed :: rest, er, h => by
    unfold ensureNoMissingMigrations at h
    split at h
    · exact ensureNoMissingMigrations_err migrations rest er h
    · simp only [Except.error.injEq] at h
      exact ⟨executed, h.symm⟩

theorem ensureMigrationsInOrder_ok_iff :
    ∀ (i : Nat) (migrations : List (NamedMigration σ E))
      (execs : List String),
    ensureMigrationsInOrder i migrations execs = .ok () ↔
      execs = (migrations.map (·.name)).take execs.length
  | _, _, [] => by simp [ensureMigrationsInOrder]
  | i, [], e :: rest => by simp [ensureMigrationsInOrder]
  | i, m :: ms, e :: rest => by
    unfold ensureMigrationsInOrder
    split
    next heq =>
      rw [ensureMigrationsInOrder_ok_iff (i + 1) ms rest]
      simp only [List.map_cons, List.length_cons, List.take_succ_cons,
        List.cons.injEq]
      constructor
      · intro h
        exact ⟨(eq_of_beq heq).symm, h⟩
      · intro h
        exact h.2
    next heq =>
      simp only [beq_iff_eq] at heq
      constructor
      · intro h
        exact absurd h (by simp)
      · intro h
        simp only [List.map_cons, List.length_cons, List.take_succ_cons,
          List.cons.injEq] at h
        exact absurd h.1.symm heq

theorem ensureMigrationsInOrder_err_shape :
    ∀ (i : Nat) (migrations : List (NamedMigration σ E))
      (execs : List String) (er : MError E),
    ensureMigrationsInOrder i migrations execs = .error er →
    er = .boundsError ∨ ∃ n j, er = .migrationOutOfOrder n j
  | _, _, [], er, h => by simp [ensureMigrationsInOrder] at h
  | i, [], e :: rest, er, h => by
    simp only [ensureMigrationsInOrder, Except.error.injEq] at h
    exact .inl h.symm
  | i, m :: ms, e :: rest, er, h => by
    unfold ensureMigrationsInOrder at h
    split at h
    · exact ensureMigrationsInOrder_err_shape (i + 1) ms rest er h
    · simp only [Except.error.injEq] at h
      exact .inr ⟨e, i, h.symm⟩

theorem ensureMigrationsInOrder_err_bounds :
    ∀ (i : Nat) (migrations : List (NamedMigration σ E))
      (execs : List String),
    ensureMigrationsInOrder i migrations execs = .error .boundsError →
    migrations.length < execs.length
  | _, _, [], h => by simp [ensureMigrationsInOrder] at h
  | i, [], e :: rest, h => by simp
  | i, m :: ms, e :: rest, h => by
    unfold ensureMigrationsInOrder at h
    split at h
    · have := ensureMigrationsInOrder_err_bounds (i + 1) ms rest h
      simp only [List.length_cons]
      omega
    · simp at h

theorem getState_ok {P : MigratorProps σ E} {db : Db σ}
    {state : MigrationState σ E} (h : getState P db = .ok state) :
    ∃ l, P.getMigrations = .ok l ∧
    state.migrations = resolveMigrations l ∧
    state.executedMigrations = getExecutedMigrations db ∧
    state.lastMigration = (getExecutedMigrations db).getLast? ∧
    state.pendingMigrations =
      getPendingMigrations state.migrations state.executedMigrations ∧
    ensureNoMissingMigrations state.migrations state.executedMigrations =
      .ok () ∧
    (P.allowUnorderedMigrations = false →
      ensureMigrationsInOrder 0 state.migrations state.executedMigrations =
        .ok ()) := by
  unfold getState at h
  split at h
  next e hprov => exact absurd h (by simp)
  next l hprov =>
    dsimp only at h
    split at h
    next e hmiss => exact absurd h (by simp)
    next hmiss =>
      split at h
      next e hord => exact absurd h (by simp)
      next hord =>
        simp only [Except.ok.injEq] at h
        subst h
        refine ⟨l, hprov, rfl, rfl, rfl, rfl, hmiss, ?_⟩
        intro hunord
        unfold checkOrder at hord
        rw [hunord] at hord
        simpa using hord

theorem getState_err_shape {P : MigratorProps σ E} {db : Db σ}
    {e : MError E} (h : getState P db = .error e) :
    (∃ u, e = .user u) ∨ IsCorrupted e ∨ e = .boundsError := by
  unfold getState at h
  split at h
  next u hprov =>
    simp only [Except.error.injEq] at h
    exact .inl ⟨u, h.symm⟩
  next l hprov =>
    dsimp only at h
    split at h
    next e2 hmiss =>
      simp only [Except.error.injEq] at h
      subst h
      obtain ⟨n, hn⟩ := ensureNoMissingMigrations_err _ _ _ hmiss
      exact .inr (.inl (by rw [hn]; trivial))
    next hmiss =>
      split at h
      next e2 hord =>
        simp only [Except.error.injEq] at h
        subst h
        unfold checkOrder at hord
        by_cases hu : P.allowUnorderedMigrations
        · rw [if_pos hu] at hord
          exact absurd hord (by simp)
        · rw [if_neg hu] at hord
          rcases ensureMigrationsInOrder_err_shape _ _ _ _ hord with
            h2 | ⟨n, j, h2⟩
          · exact .inr (.inr h2)
          · exact .inr (.inl (by rw [h2]; trivial))
      next hord => exact absurd h (by simp)

theorem migrateUp_ok {db : Db σ} {state : MigrationState σ E}
    {step : StepCount} {rs : MigrationResultSet E} {db2 : Db σ}
    (h : migrateUp db state step = .ok (rs, db2)) :
    rs = { error := none
           results := some ((step.slice state.pendingMigrations).map
             fun m => ⟨m.name, .Up, .Success⟩) } ∧
    db2.log = db.log ++
      upRows db.tsOf db.clock (step.slice state.pendingMigrations) ∧
    db2.clock = db.clock + (step.slice state.pendingMigrations).length ∧
    db2.tableExists = db.tableExists ∧
    db2.tsOf = db.tsOf := by
  unfold migrateUp at h
  dsimp only at h
  split at h
  next res db3 hloop =>
    simp only [Except.ok.injEq, Prod.mk.injEq] at h
    obtain ⟨h1, h2⟩ := h
    subst h2
    obtain ⟨g1, g2, g3, g4, g5⟩ := migrateUpLoop_ok _ _ _ _ _ hloop
    rw [← h1, g1]
    exact ⟨by simp, g2, g3, g4, g5⟩
  next t hloop => exact absurd h (by simp)

theorem migrateUp_err {db : Db σ} {state : MigrationState σ E}
    {step : StepCount} {t : Thrown E}
    (h : migrateUp db state step = .error t) :
    ∃ (pre : List (NamedMigration σ E)) (m : NamedMigration σ E)
      (rest : List (NamedMigration σ E)) (e : E),
    step.slice state.pendingMigrations = pre ++ m :: rest ∧
    t = .resultSetErr
      { error := some (.user e)
        results := some (pre.map (fun m => ⟨m.name, .Up, .Success⟩) ++
          ⟨m.name, .Up, .Error⟩ ::
            rest.map fun m => ⟨m.name, .Up, .NotExecuted⟩) } := by
  unfold migrateUp at h
  dsimp only at h
  split at h
  next res db3 hloop => exact absurd h (by simp)
  next t2 hloop =>
    simp only [Except.error.injEq] at h
    subst h
    obtain ⟨pre, m, rest, e, h1, h2⟩ := migrateUpLoop_err _ _ _ _ hloop
    exact ⟨pre, m, rest, e, h1, by rw [h2]; simp⟩

theorem migrateDown_ok {db : Db σ} {state : MigrationState σ E}
    {step : StepCount} {rs : MigrationResultSet E} {db2 : Db σ}
    (h : migrateDown db state step = .ok (rs, db2)) :
    ∃ cands, buildRollback state step = some cands ∧
    rs = { error := none, results := some (cands.map downResult) } ∧
    db2.log = db.log.filter
      (fun r => !((downedNames cands).contains r.name)) ∧
    db2.clock = db.clock ∧
    db2.tableExists = db.tableExists ∧
    db2.tsOf = db.tsOf := by
  unfold migrateDown at h
  split at h
  next hbuild => exact absurd h (by simp)
  next cands hbuild =>
    split at h
    next res db3 hloop =>
      simp only [Except.ok.injEq, Prod.mk.injEq] at h
      obtain ⟨h1, h2⟩ := h
      subst h2
      obtain ⟨g1, g2, g3, g4, g5⟩ := migrateDownLoop_ok _ _ _ _ _ hloop
      rw [← h1, g1]
      exact ⟨cands, hbuild, by simp, g2, g3, g4, g5⟩
    next t hloop => exact absurd h (by simp)

theorem migrateDown_err {db : Db σ} {state : MigrationState σ E}
    {step : StepCount} {t : Thrown E}
    (h : migrateDown db state step = .error t) :
    (buildRollback state step = none ∧ t = .plain .boundsError) ∨
    ∃ (cands pre : List (NamedMigration σ E)) (m : NamedMigration σ E)
      (rest : List (NamedMigration σ E)) (e : E),
    buildRollback state step = some cands ∧
    cands = pre ++ m :: rest ∧
    m.down.isSome = true ∧
    t = .resultSetErr
      { error := some (.user e)
        results := some (pre.map downResult ++
          ⟨m.name, .Down, .Error⟩ ::
            rest.map fun m => ⟨m.name, .Down, .NotExecuted⟩) } := by
  unfold migrateDown at h
  split at h
  next hbuild =>
    simp only [Except.error.injEq] at h
    exact .inl ⟨hbuild, h.symm⟩
  next cands hbuild =>
    split at h
    next res db3 hloop => exact absurd h (by simp)
    next t2 hloop =>
      simp only [Except.error.injEq] at h
      subst h
      obtain ⟨pre, m, rest, e, h1, h2, h3⟩ := migrateDownLoop_err _ _ _ _ hloop
      exact .inr ⟨cands, pre, m, rest, e, hbuild, h1, h2, by rw [h3]; simp⟩

theorem runMigrations_ok {P : MigratorProps σ E}
    {f : MigrationState σ E → MigrationDirection × StepCount} {db : Db σ}
    {rs : MigrationResultSet E} {db2 : Db σ}
    (h : runMigrations P f db = .ok (rs, db2)) :
    rs.error = none ∧ (∃ l, rs.results = some l) ∧
    ∃ state, getState P db = .ok state := by
  unfold runMigrations at h
  split at h
  next e hstate => exact absurd h (by simp)
  next state hstate =>
    split at h
    next hlen =>
      simp only [Except.ok.injEq, Prod.mk.injEq] at h
      exact ⟨by rw [← h.1], ⟨[], by rw [← h.1]⟩, state, hstate⟩
    next hlen =>
      split at h
      next direction step hf =>
        split at h
        next hstep =>
          simp only [Except.ok.injEq, Prod.mk.injEq] at h
          exact ⟨by rw [← h.1], ⟨[], by rw [← h.1]⟩, state, hstate⟩
        next hstep =>
          split at h
          next =>
            obtain ⟨cands, _, hrs, _⟩ := migrateDown_ok h
            exact ⟨by rw [hrs], ⟨_, by rw [hrs]⟩, state, hstate⟩
          next =>
            obtain ⟨hrs, _⟩ := migrateUp_ok h
            exact ⟨by rw [hrs], ⟨_, by rw [hrs]⟩, state, hstate⟩

theorem runMigrations_err_rs {P : MigratorProps σ E}
    {f : MigrationState σ E → MigrationDirection × StepCount} {db : Db σ}
    {rs : MigrationResultSet E}
    (h : runMigrations P f db = .error (.resultSetErr rs)) :
    (∃ e, rs.error = some (.user e)) ∧ ∃ l, rs.results = some l := by
  unfold runMigrations at h
  split at h
  next e hstate => simp at h
  next state hstate =>
    split at h
    next hlen => simp at h
    next hlen =>
      split at h
      next direction step hf =>
        split at h
        next hstep => simp at h
        next hstep =>
          split at h
          next =>
            rcases migrateDown_err h with ⟨_, habs⟩ | ⟨_, _, _, _, e, _, _, _, hshape⟩
            · exact absurd habs (by simp)
            · simp only [Thrown.resultSetErr.injEq] at hshape
              rw [hshape]
              exact ⟨⟨e, rfl⟩, _, rfl⟩
          next =>
            obtain ⟨_, _, _, e, _, hshape⟩ := migrateUp_err h
            simp only [Thrown.resultSetErr.injEq] at hshape
            rw [hshape]
            exact ⟨⟨e, rfl⟩, _, rfl⟩

theorem migrate_cases (P : MigratorProps σ E)
    (f : MigrationState σ E → MigrationDirection × StepCount) (db : Db σ) :
    (∃ rs db2,
      runMigrations P f (ensureMigrationTableExists db) = .ok (rs, db2) ∧
      migrate P f db = .ok (rs, db2)) ∨
    (∃ rs,
      runMigrations P f (ensureMigrationTableExists db) =
        .error (.resultSetErr rs) ∧
      migrate P f db = .ok (rs, ensureMigrationTableExists db)) ∨
    (∃ e,
      runMigrations P f (ensureMigrationTableExists db) =
        .error (.plain e) ∧
      migrate P f db = .ok ({ error := some e }, ensureMigrationTableExists db)) := by
  unfold migrate
  dsimp only
  cases hrun : runMigrations P f (ensureMigrationTableExists db) with
  | ok r =>
    obtain ⟨rs, db2⟩ := r
    exact .inl ⟨rs, db2, rfl, rfl⟩
  | error t =>
    cases t with
    | resultSetErr rs => exact .inr (.inl ⟨rs, rfl, rfl⟩)
    | plain e => exact .inr (.inr ⟨e, rfl, rfl⟩)

theorem mapM'_find?_some : ∀ (names : List String)
    (migs cands : List (NamedMigration σ E)),
    (List.mapM' (fun n => migs.find? fun m => m.name == n) names) =
      some cands →
    cands.map (·.name) = names ∧ ∀ m ∈ cands, m ∈ migs
  | [], migs, cands, h => by
    simp only [List.mapM', Option.pure_def, Option.some.injEq] at h
    rw [← h]
    simp
  | n :: rest, migs, cands, h => by
    simp only [List.mapM', Option.pure_def, Option.bind_eq_bind,
      Option.bind_eq_some, Option.some.injEq] at h
    obtain ⟨m, hm, l, hl, hc⟩ := h
    obtain ⟨h1, h2⟩ := mapM'_find?_some rest migs l hl
    subst hc
    refine ⟨?_, ?_⟩
    · have h3 := List.find?_some hm
      simp only [List.map_cons, h1, List.cons.injEq, and_true]
      exact eq_of_beq h3
    · intro x hx
      rcases List.mem_cons.mp hx with hx | hx
      · rw [hx]; exact List.mem_of_find?_eq_some hm
      · exact h2 x hx

theorem mapM_find?_some (names : List String)
    (migs cands : List (NamedMigration σ E))
    (h : (names.mapM fun n => migs.find? fun m => m.name == n) = some cands) :
    cands.map (·.name) = names ∧ ∀ m ∈ cands, m ∈ migs := by
  rw [← List.mapM'_eq_mapM] at h
  exact mapM'_find?_some names migs cands h

theorem mapM'_find?_isSome : ∀ (names : List String)
    (migs : List (NamedMigration σ E)),
    (∀ n ∈ names, ∃ m ∈ migs, m.name = n) →
    ∃ cands,
      (List.mapM' (fun n => migs.find? fun m => m.name == n) names) =
        some cands
  | [], migs, _ => ⟨[], by simp only [List.mapM', Option.pure_def]⟩
  | n :: rest, migs, h => by
    obtain ⟨m, hm, hname⟩ := h n (List.mem_cons_self _ _)
    have hfind : (migs.find? fun m2 => m2.name == n).isSome = true :=
      List.find?_isSome.mpr ⟨m, hm, by simp [hname]⟩
    obtain ⟨m2, hm2⟩ := Option.isSome_iff_exists.mp hfind
    obtain ⟨cands, hc⟩ :=
      mapM'_find?_isSome rest migs fun x hx => h x (List.mem_cons_of_mem _ hx)
    exact ⟨m2 :: cands, by simp only [List.mapM', hm2, hc]; rfl⟩

theorem mapM_find?_isSome (names : List String)
    (migs : List (NamedMigration σ E))
    (h : ∀ n ∈ names, ∃ m ∈ migs, m.name = n) :
    ∃ cands,
      (names.mapM fun n => migs.find? fun m => m.name == n) = some cands := by
  rw [← List.mapM'_eq_mapM]
  exact mapM'_find?_isSome names migs h

theorem countP_error_le_one : ∀ l : List MigrationResult,
    l.Pairwise (fun a b => a.status = .Error → b.status = .NotExecuted) →
    l.countP (fun r => r.status == MigrationStatus.Error) ≤ 1
  | [], _ => by simp
  | a :: l, h => by
    rw [List.pairwise_cons] at h
    rw [List.countP_cons]
    by_cases ha : a.status = .Error
    · have hz : l.countP (fun r => r.status == MigrationStatus.Error) = 0 :=
        List.countP_eq_zero.mpr fun b hb => by simp [h.1 b hb ha]
      simp [hz, ha]
    · have hc := countP_error_le_one l h.2
      simpa [ha] using hc

theorem pairwise_of_no_error {l : List MigrationResult}
    (h : ∀ r ∈ l, ¬r.status = .Error) :
    l.Pairwise (fun a b => a.status = .Error → b.status = .NotExecuted) :=
  List.pairwise_of_forall_mem_list fun a ha _ _ hsa => absurd hsa (h a ha)

theorem runMigrations_ok_statuses {P : MigratorProps σ E}
    {f : MigrationState σ E → MigrationDirection × StepCount} {db : Db σ}
    {rs : MigrationResultSet E} {db2 : Db σ} {l : List MigrationResult}
    (h : runMigrations P f db = .ok (rs, db2)) (hres : rs.results = some l) :
    ∀ r ∈ l, r.status = .Success ∨ r.status = .NotExecuted := by
  unfold runMigrations at h
  split at h
  next e hstate => exact absurd h (by simp)
  next state hstate =>
    split at h
    next hlen =>
      simp only [Except.ok.injEq, Prod.mk.injEq] at h
      rw [← h.1] at hres
      simp only [Option.some.injEq] at hres
      rw [← hres]
      simp
    next hlen =>
      split at h
      next direction step hf =>
        split at h
        next hstep =>
          simp only [Except.ok.injEq, Prod.mk.injEq] at h
          rw [← h.1] at hres
          simp only [Option.some.injEq] at hres
          rw [← hres]
          simp
        next hstep =>
          split at h
          next =>
            obtain ⟨cands, _, hrs, _⟩ := migrateDown_ok h
            rw [hrs] at hres
            simp only [Option.some.injEq] at hres
            rw [← hres]
            intro r hr
            obtain ⟨m, _, hm⟩ := List.mem_map.mp hr
            rw [← hm]
            unfold downResult
            cases m.down <;> simp
          next =>
            obtain ⟨hrs, _⟩ := migrateUp_ok h
            rw [hrs] at hres
            simp only [Option.some.injEq] at hres
            rw [← hres]
            intro r hr
            obtain ⟨m, _, hm⟩ := List.mem_map.mp hr
            rw [← hm]
            exact .inl rfl

theorem runMigrations_err_results_shape {P : MigratorProps σ E}
    {f : MigrationState σ E → MigrationDirection × StepCount} {db : Db σ}
    {rs : MigrationResultSet E}
    (h : runMigrations P f db = .error (.resultSetErr rs)) :
    ∃ (pre : List MigrationResult) (mid : MigrationResult)
      (post : List MigrationResult),
    rs.results = some (pre ++ mid :: post) ∧
    (∀ r ∈ pre, r.status = .Success ∨ r.status = .NotExecuted) ∧
    mid.status = .Error ∧
    (∀ r ∈ post, r.status = .NotExecuted) ∧
    rs.error.isSome = true := by
  unfold runMigrations at h
  split at h
  next e hstate => simp at h
  next state hstate =>
    split at h
    next hlen => simp at h
    next hlen =>
      split at h
      next direction step hf =>
        split at h
        next hstep => simp at h
        next hstep =>
          split at h
          next =>
            rcases migrateDown_err h with ⟨_, habs⟩ |
              ⟨cands, pre, m, rest, e, _, _, _, hshape⟩
            · exact absurd habs (by simp)
            · simp only [Thrown.resultSetErr.injEq] at hshape
              rw [hshape]
              refine ⟨pre.map downResult, ⟨m.name, .Down, .Error⟩,
                rest.map fun m => ⟨m.name, .Down, .NotExecuted⟩,
                rfl, ?_, rfl, ?_, rfl⟩
              · intro r hr
                obtain ⟨m2, _, hm2⟩ := List.mem_map.mp hr
                rw [← hm2]
                unfold downResult
                cases m2.down <;> simp
              · intro r hr
                obtain ⟨m2, _, hm2⟩ := List.mem_map.mp hr
                rw [← hm2]
          next =>
            obtain ⟨pre, m, rest, e, _, hshape⟩ := migrateUp_err h
            simp only [Thrown.resultSetErr.injEq] at hshape
            rw [hshape]
            refine ⟨pre.map fun m => ⟨m.name, .Up, .Success⟩,
              ⟨m.name, .Up, .Error⟩,
              rest.map fun m => ⟨m.name, .Up, .NotExecuted⟩,
              rfl, ?_, rfl, ?_, rfl⟩
            · intro r hr
              obtain ⟨m2, _, hm2⟩ := List.mem_map.mp hr
              rw [← hm2]
              exact .inl rfl
            · intro r hr
              obtain ⟨m2, _, hm2⟩ := List.mem_map.mp hr
              rw [← hm2]

theorem ensure_eq_self {db : Db σ} (h : db.tableExists = true) :
    ensureMigrationTableExists db = db := by
  unfold ensureMigrationTableExists
  rw [if_pos h]

/-- C5: For every input (migration source contents, log contents, and
migration operations that may throw arbitrary errors), the public
orchestration operation `migrateToLatest` never throws: every error raised
inside state resolution or migration execution is caught at the
orchestration boundary and returned as a `MigrationResultSet`. -/
theorem migrateToLatest_never_throws (P : MigratorProps σ E) (db : Db σ) :
    ∃ rs db2, migrateToLatest P db = .ok (rs, db2) := by
  rcases migrate_cases P (fun _ => (.Up, .inf)) db with
    ⟨rs, db2, _, hm⟩ | ⟨rs, _, hm⟩ | ⟨e, _, hm⟩
  · exact ⟨rs, db2, hm⟩
  · exact ⟨rs, _, hm⟩
  · exact ⟨_, _, hm⟩

/-- C4: Every `MigrationResultSet` returned by an orchestration call has
either a `results` list (possibly empty) or an `error` without a `results`
list, and never has neither field. -/
theorem resultSet_results_or_error {P : MigratorProps σ E}
    {f : MigrationState σ E → MigrationDirection × StepCount} {db : Db σ}
    {rs : MigrationResultSet E} {db2 : Db σ}
    (h : migrate P f db = .ok (rs, db2)) :
    (∃ l, rs.results = some l) ∨
    (rs.results = none ∧ ∃ e, rs.error = some e) := by
  rcases migrate_cases P f db with
      ⟨rs2, db3, hrun, hm⟩ | ⟨rs2, hrun, hm⟩ | ⟨e, hrun, hm⟩ <;>
    rw [hm] at h <;> simp only [Except.ok.injEq, Prod.mk.injEq] at h <;>
    obtain ⟨h1, h2⟩ := h
  · obtain ⟨_, ⟨l, hl⟩, _⟩ := runMigrations_ok hrun
    exact .inl ⟨l, by rw [← h1]; exact hl⟩
  · obtain ⟨_, l, hl⟩ := runMigrations_err_rs hrun
    exact .inl ⟨l, by rw [← h1]; exact hl⟩
  · rw [← h1]
    exact .inr ⟨rfl, e, rfl⟩

/-- C4 witness: an orchestration call on an empty migration source returns
an empty `results` list, satisfying the disjunction. -/
theorem resultSet_results_or_error_witness :
    migrate wPempty wUpInf wDb0 = .ok
      ({ error := none, results := some [] },
        (⟨true, [], 0, fun _ => "ts", 0⟩ : Db Nat)) ∧
    ((∃ l, ({ error := none, results := some [] } :
        MigrationResultSet String).results = some l) ∨
      (({ error := none, results := some [] } :
        MigrationResultSet String).results = none ∧
       ∃ e, ({ error := none, results := some [] } :
        MigrationResultSet String).error = some e)) := by
  have h : migrate wPempty wUpInf wDb0 = .ok
      ({ error := none, results := some [] },
        (⟨true, [], 0, fun _ => "ts", 0⟩ : Db Nat)) := rfl
  exact ⟨h, resultSet_results_or_error h⟩

/-- C1: For every batch in which some migration operation throws (more
generally, whenever the returned result set carries a top-level error), the
whole transaction is rolled back: the database returned by `migrate` is
exactly the pre-transaction database, so the persisted migration log is
identical to its state before the call — even for migrations earlier in the
batch whose result entries report `Success`.  (Table creation happens before
the transaction, so a previously absent log table exists afterwards but is
empty, holding exactly its prior rows.) -/
theorem failed_batch_rolls_back {P : MigratorProps σ E}
    {f : MigrationState σ E → MigrationDirection × StepCount} {db : Db σ}
    {rs : MigrationResultSet E} {db2 : Db σ} {e : MError E}
    (h : migrate P f db = .ok (rs, db2)) (herr : rs.error = some e) :
    db2 = ensureMigrationTableExists db ∧
    (db.tableExists = true → db2.log = db.log) := by
  rcases migrate_cases P f db with
      ⟨rs2, db3, hrun, hm⟩ | ⟨rs2, hrun, hm⟩ | ⟨e2, hrun, hm⟩ <;>
    rw [hm] at h <;> simp only [Except.ok.injEq, Prod.mk.injEq] at h <;>
    obtain ⟨h1, h2⟩ := h
  · exfalso
    obtain ⟨hnone, _, _⟩ := runMigrations_ok hrun
    rw [h1, herr] at hnone
    exact Option.noConfusion hnone
  · refine ⟨h2.symm, fun ht => ?_⟩
    rw [← h2, ensure_eq_self ht]
  · refine ⟨h2.symm, fun ht => ?_⟩
    rw [← h2, ensure_eq_self ht]

/-- C1 witness: a two-migration up batch whose second migration throws —
migration `001_a` reported `Success`, yet the returned database equals the
pre-transaction one (empty log). -/
theorem failed_batch_rolls_back_witness :
    migrate wPfail wUpInf wDb0 = .ok
      ({ error := some (.user "boom")
         results := some [⟨"001_a", .Up, .Success⟩,
           ⟨"002_b", .Up, .Error⟩] },
        (⟨true, [], 0, fun _ => "ts", 0⟩ : Db Nat)) ∧
    ({ error := some (.user "boom")
       results := some [⟨"001_a", .Up, .Success⟩, ⟨"002_b", .Up, .Error⟩] } :
      MigrationResultSet String).error = some (.user "boom") ∧
    ((⟨true, [], 0, fun _ => "ts", 0⟩ : Db Nat) =
        ensureMigrationTableExists wDb0 ∧
      (wDb0.tableExists = true →
        (⟨true, [], 0, fun _ => "ts", 0⟩ : Db Nat).log = wDb0.log)) := by
  have h : migrate wPfail wUpInf wDb0 = .ok
      ({ error := some (.user "boom")
         results := some [⟨"001_a", .Up, .Success⟩,
           ⟨"002_b", .Up, .Error⟩] },
        (⟨true, [], 0, fun _ => "ts", 0⟩ : Db Nat)) := rfl
  exact ⟨h, rfl, failed_batch_rolls_back h rfl⟩

/-- C3: For every batch in which a candidate's operation throws, the
returned results list has the error entry followed only by `NotExecuted`
entries (so no `Success` entry appears after an `Error` entry), the causing
error is surfaced as the top-level error, and at most one entry is `Error`;
when no top-level error is present no entry is `Error`. -/
theorem error_truncates_results {P : MigratorProps σ E}
    {f : MigrationState σ E → MigrationDirection × StepCount} {db : Db σ}
    {rs : MigrationResultSet E} {db2 : Db σ} {l : List MigrationResult}
    (h : migrate P f db = .ok (rs, db2)) (hres : rs.results = some l) :
    l.Pairwise (fun a b => a.status = .Error → b.status = .NotExecuted) ∧
    ((∃ r ∈ l, r.status = .Error) → ∃ e, rs.error = some e) ∧
    (rs.error = none → ∀ r ∈ l, ¬r.status = .Error) ∧
    l.countP (fun r => r.status == MigrationStatus.Error) ≤ 1 := by
  rcases migrate_cases P f db with
      ⟨rs2, db3, hrun, hm⟩ | ⟨rs2, hrun, hm⟩ | ⟨e2, hrun, hm⟩ <;>
    rw [hm] at h <;> simp only [Except.ok.injEq, Prod.mk.injEq] at h <;>
    obtain ⟨h1, h2⟩ := h
  · subst h1
    have hstat := runMigrations_ok_statuses hrun hres
    have hnoerr : ∀ r ∈ l, ¬r.status = .Error := fun r hr => by
      rcases hstat r hr with hx | hx <;> simp [hx]
    have hz : l.countP (fun r => r.status == MigrationStatus.Error) = 0 :=
      List.countP_eq_zero.mpr fun r hr => by simp [hnoerr r hr]
    refine ⟨pairwise_of_no_error hnoerr, ?_, fun _ => hnoerr, ?_⟩
    · rintro ⟨r, hr, hstatus⟩
      exact absurd hstatus (hnoerr r hr)
    · rw [hz]
      exact Nat.zero_le 1
  · subst h1
    obtain ⟨pre, mid, post, hres2, hpre, hmid, hpost, hsome⟩ :=
      runMigrations_err_results_shape hrun
    rw [hres] at hres2
    simp only [Option.some.injEq] at hres2
    subst hres2
    have hnoerrpre : ∀ r ∈ pre, ¬r.status = .Error := fun r hr => by
      rcases hpre r hr with hx | hx <;> simp [hx]
    have hpw : (pre ++ mid :: post).Pairwise
        (fun a b => a.status = .Error → b.status = .NotExecuted) := by
      rw [List.pairwise_append]
      refine ⟨pairwise_of_no_error hnoerrpre, ?_, ?_⟩
      · rw [List.pairwise_cons]
        refine ⟨fun b hb _ => hpost b hb,
          pairwise_of_no_error fun r hr => ?_⟩
        simp [hpost r hr]
      · exact fun a ha b _ hsa => absurd hsa (hnoerrpre a ha)
    refine ⟨hpw, fun _ => Option.isSome_iff_exists.mp hsome, ?_, ?_⟩
    · intro hnone
      rw [hnone] at hsome
      simp at hsome
    · exact countP_error_le_one _ hpw
  · rw [← h1] at hres
    simp at hres

/-- C3 witness: in the two-migration failing batch, the results list is
`[Success, Error]` with the top-level error set, satisfying all four
conjuncts. -/
theorem error_truncates_results_witness :
    migrate wPfail wUpInf wDb0 = .ok
      ({ error := some (.user "boom")
         results := some [⟨"001_a", .Up, .Success⟩,
           ⟨"002_b", .Up, .Error⟩] },
        (⟨true, [], 0, fun _ => "ts", 0⟩ : Db Nat)) ∧
    ({ error := some (.user "boom")
       results := some [⟨"001_a", .Up, .Success⟩, ⟨"002_b", .Up, .Error⟩] } :
      MigrationResultSet String).results =
        some [⟨"001_a", .Up, .Success⟩, ⟨"002_b", .Up, .Error⟩] ∧
    ([⟨"001_a", .Up, .Success⟩,
      (⟨"002_b", .Up, .Error⟩ : MigrationResult)].Pairwise
        (fun a b => a.status = .Error → b.status = .NotExecuted) ∧
      ((∃ r ∈ [⟨"001_a", .Up, .Success⟩,
          (⟨"002_b", .Up, .Error⟩ : MigrationResult)], r.status = .Error) →
        ∃ e, ({ error := some (.user "boom")
                results := some [⟨"001_a", .Up, .Success⟩,
                  ⟨"002_b", .Up, .Error⟩] } :
          MigrationResultSet String).error = some e) ∧
      (({ error := some (.user "boom")
          results := some [⟨"001_a", .Up, .Success⟩,
            ⟨"002_b", .Up, .Error⟩] } :
          MigrationResultSet String).error = none →
        ∀ r ∈ [⟨"001_a", .Up, .Success⟩,
          (⟨"002_b", .Up, .Error⟩ : MigrationResult)],
          ¬r.status = .Error) ∧
      [⟨"001_a", .Up, .Success⟩,
        (⟨"002_b", .Up, .Error⟩ : MigrationResult)].countP
          (fun r => r.status == MigrationStatus.Error) ≤ 1) := by
  have h : migrate wPfail wUpInf wDb0 = .ok
      ({ error := some (.user "boom")
         results := some [⟨"001_a", .Up, .Success⟩,
           ⟨"002_b", .Up, .Error⟩] },
        (⟨true, [], 0, fun _ => "ts", 0⟩ : Db Nat)) := rfl
  exact ⟨h, rfl, error_truncates_results h rfl⟩

/-- C9: For every valid resolved state, `pendingMigrations` equals the
sorted migrations list with exactly those entries removed whose name occurs
in `executedNames`, preserving the relative order of the migrations list
(expressed as: it is an order-preserving sublist containing exactly the
migrations whose name is not executed). -/
theorem pending_eq_migrations_minus_executed {P : MigratorProps σ E}
    {db : Db σ} {state : MigrationState σ E}
    (h : getState P db = .ok state) :
    state.pendingMigrations.Sublist state.migrations ∧
    ∀ m, m ∈ state.pendingMigrations ↔
      (m ∈ state.migrations ∧ m.name ∉ state.executedMigrations) := by
  obtain ⟨l, _, _, _, _, hpend, _, _⟩ := getState_ok h
  rw [hpend]
  unfold getPendingMigrations
  refine ⟨List.filter_sublist _, fun m => ?_⟩
  rw [List.mem_filter]
  simp

/-- C9 witness: with migrations `[001_a, 002_b]` and `001_a` executed, the
pending list is exactly `[002_b]`. -/
theorem pending_eq_migrations_minus_executed_witness :
    getState wPab wDb1 = .ok
      (⟨[wMigADown, wMigB], ["001_a"], some "001_a", [wMigB]⟩ :
        MigrationState Nat String) ∧
    ((⟨[wMigADown, wMigB], ["001_a"], some "001_a", [wMigB]⟩ :
        MigrationState Nat String).pendingMigrations.Sublist
      (⟨[wMigADown, wMigB], ["001_a"], some "001_a", [wMigB]⟩ :
        MigrationState Nat String).migrations ∧
     ∀ m, m ∈ (⟨[wMigADown, wMigB], ["001_a"], some "001_a", [wMigB]⟩ :
        MigrationState Nat String).pendingMigrations ↔
       (m ∈ (⟨[wMigADown, wMigB], ["001_a"], some "001_a", [wMigB]⟩ :
          MigrationState Nat String).migrations ∧
        m.name ∉ (⟨[wMigADown, wMigB], ["001_a"], some "001_a", [wMigB]⟩ :
          MigrationState Nat String).executedMigrations)) := by
  have h : getState wPab wDb1 = .ok
      (⟨[wMigADown, wMigB], ["001_a"], some "001_a", [wMigB]⟩ :
        MigrationState Nat String) := rfl
  exact ⟨h, pending_eq_migrations_minus_executed h⟩

/-- C10: In every state that passed resolution, looking up an executed name
in `state.migrations` always finds a migration record, so the candidate list
of a down batch is always built without the non-null assertion passing
through an absent value, for every step count. -/
theorem down_lookup_always_finds {P : MigratorProps σ E} {db : Db σ}
    {state : MigrationState σ E} (h : getState P db = .ok state) :
    (∀ n ∈ state.executedMigrations,
      (state.migrations.find? fun m => m.name == n).isSome = true) ∧
    ∀ step, ∃ cands, buildRollback state step = some cands := by
  obtain ⟨l, _, _, _, _, _, hmiss, _⟩ := getState_ok h
  have hfind : ∀ n ∈ state.executedMigrations,
      ∃ m ∈ state.migrations, m.name = n :=
    (ensureNoMissingMigrations_ok_iff _ _).mp hmiss
  refine ⟨fun n hn => ?_, fun step => ?_⟩
  · obtain ⟨m, hm, hname⟩ := hfind n hn
    exact List.find?_isSome.mpr ⟨m, hm, by simp [hname]⟩
  · unfold buildRollback
    apply mapM_find?_isSome
    intro n hn
    apply hfind
    have hrev : n ∈ state.executedMigrations.reverse := by
      cases step with
      | inf => exact hn
      | num k => exact List.mem_of_mem_take hn
    exact List.mem_reverse.mp hrev

/-- C10 witness: in the state with `001_a` executed, the lookup succeeds for
every executed name and the rollback candidates build for every step.  -/
theorem down_lookup_always_finds_witness :
    getState wPab wDb1 = .ok
      (⟨[wMigADown, wMigB], ["001_a"], some "001_a", [wMigB]⟩ :
        MigrationState Nat String) ∧
    ((∀ n ∈ (⟨[wMigADown, wMigB], ["001_a"], some "001_a", [wMigB]⟩ :
        MigrationState Nat String).executedMigrations,
      ((⟨[wMigADown, wMigB], ["001_a"], some "001_a", [wMigB]⟩ :
        MigrationState Nat String).migrations.find?
          fun m => m.name == n).isSome = true) ∧
     ∀ step, ∃ cands,
       buildRollback (⟨[wMigADown, wMigB], ["001_a"], some "001_a",
         [wMigB]⟩ : MigrationState Nat String) step = some cands) := by
  have h : getState wPab wDb1 = .ok
      (⟨[wMigADown, wMigB], ["001_a"], some "001_a", [wMigB]⟩ :
        MigrationState Nat String) := rfl
  exact ⟨h, down_lookup_always_finds h⟩

theorem getState_err_of_missing {P : MigratorProps σ E} {db : Db σ}
    {l : List (NamedMigration σ E)} {er : MError E}
    (hprov : P.getMigrations = .ok l)
    (h : ensureNoMissingMigrations (resolveMigrations l)
      (getExecutedMigrations db) = .error er) :
    getState P db = .error er := by
  unfold getState
  rw [hprov]
  dsimp only
  rw [h]

theorem getState_err_of_order {P : MigratorProps σ E} {db : Db σ}
    {l : List (NamedMigration σ E)} {er : MError E}
    (hprov : P.getMigrations = .ok l)
    (hmiss : ensureNoMissingMigrations (resolveMigrations l)
      (getExecutedMigrations db) = .ok ())
    (hord : checkOrder P (resolveMigrations l)
      (getExecutedMigrations db) = .error er) :
    getState P db = .error er := by
  unfold getState
  rw [hprov]
  dsimp only
  rw [hmiss]
  dsimp only
  rw [hord]

theorem runMigrations_err_of_getState {P : MigratorProps σ E}
    {f : MigrationState σ E → MigrationDirection × StepCount} {db : Db σ}
    {er : MError E} (h : getState P db = .error er) :
    runMigrations P f db = .error (.plain er) := by
  unfold runMigrations
  rw [h]

theorem migrate_of_run_plain {P : MigratorProps σ E}
    {f : MigrationState σ E → MigrationDirection × StepCount} {db : Db σ}
    {er : MError E}
    (h : runMigrations P f (ensureMigrationTableExists db) =
      .error (.plain er)) :
    migrate P f db = .ok ({ error := some er },
      ensureMigrationTableExists db) := by
  unfold migrate
  dsimp only
  rw [h]

/-- C2: For every resolution call where either some name in the executed log
is absent from the source's migration list, or (with unordered migrations
not allowed) the first `len(executedNames)` entries of the name-sorted
migration list do not equal `executedNames` in order, the orchestration call
returns a result set whose top-level error is a corrupted-migrations error
and whose `results` field is absent, and the database is returned exactly as
it was after table bootstrap: no migration operation has touched it and no
log row is written or deleted.  (The executed names are pairwise distinct
because `name` is the log table's primary key.) -/
theorem corrupted_history_aborts {P : MigratorProps σ E}
    {f : MigrationState σ E → MigrationDirection × StepCount} {db : Db σ}
    {l : List (NamedMigration σ E)}
    (hprov : P.getMigrations = .ok l)
    (hnodup : (getExecutedMigrations (ensureMigrationTableExists db)).Nodup)
    (hcond :
      (∃ n ∈ getExecutedMigrations (ensureMigrationTableExists db),
        ∀ m ∈ resolveMigrations l, ¬m.name = n) ∨
      (P.allowUnorderedMigrations = false ∧
        ¬getExecutedMigrations (ensureMigrationTableExists db) =
          ((resolveMigrations l).map (·.name)).take
            (getExecutedMigrations (ensureMigrationTableExists db)).length)) :
    ∃ er, IsCorrupted er ∧
      migrate P f db = .ok ({ error := some er, results := none },
        ensureMigrationTableExists db) := by
  rcases hcond with ⟨n, hn, hnone⟩ | ⟨hunord, hmismatch⟩
  · rcases exceptUnit_cases (ensureNoMissingMigrations (resolveMigrations l)
        (getExecutedMigrations (ensureMigrationTableExists db))) with
      hok | ⟨er, herr⟩
    · obtain ⟨m, hm, hname⟩ :=
        (ensureNoMissingMigrations_ok_iff _ _).mp hok n hn
      exact absurd hname (hnone m hm)
    · obtain ⟨n2, hn2⟩ := ensureNoMissingMigrations_err _ _ _ herr
      exact ⟨er, by rw [hn2]; trivial,
        migrate_of_run_plain (runMigrations_err_of_getState
          (getState_err_of_missing hprov herr))⟩
  · rcases exceptUnit_cases (ensureNoMissingMigrations (resolveMigrations l)
        (getExecutedMigrations (ensureMigrationTableExists db))) with
      hok | ⟨er, herr⟩
    · rcases exceptUnit_cases (ensureMigrationsInOrder 0
          (resolveMigrations l)
          (getExecutedMigrations (ensureMigrationTableExists db))) with
        hok2 | ⟨er, herr2⟩
      · exact absurd ((ensureMigrationsInOrder_ok_iff _ _ _).mp hok2)
          hmismatch
      · have hnotbounds : ¬er = .boundsError := by
          intro hb
          rw [hb] at herr2
          have hlt := ensureMigrationsInOrder_err_bounds _ _ _ herr2
          have hsub : getExecutedMigrations (ensureMigrationTableExists db) ⊆
              (resolveMigrations l).map (·.name) := by
            intro x hx
            obtain ⟨m, hm, hname⟩ :=
              (ensureNoMissingMigrations_ok_iff _ _).mp hok x hx
            exact List.mem_map.mpr ⟨m, hm, hname⟩
          have hle := (List.Nodup.subperm hnodup hsub).length_le
          rw [List.length_map] at hle
          omega
        rcases ensureMigrationsInOrder_err_shape _ _ _ _ herr2 with
          hb | ⟨n2, j, hoo⟩
        · exact absurd hb hnotbounds
        · have hco : checkOrder P (resolveMigrations l)
              (getExecutedMigrations (ensureMigrationTableExists db)) =
              .error er := by
            unfold checkOrder
            rw [hunord]
            simpa using herr2
          exact ⟨er, by rw [hoo]; trivial,
            migrate_of_run_plain (runMigrations_err_of_getState
              (getState_err_of_order hprov hok hco))⟩
    · obtain ⟨n2, hn2⟩ := ensureNoMissingMigrations_err _ _ _ herr
      exact ⟨er, by rw [hn2]; trivial,
        migrate_of_run_plain (runMigrations_err_of_getState
          (getState_err_of_missing hprov herr))⟩

/-- C2 witness: the log records `001_a` but the source is empty — the call
returns the corrupted-history error with no results and an untouched
database. -/
theorem corrupted_history_aborts_witness :
    wPempty.getMigrations = .ok [] ∧
    (getExecutedMigrations (ensureMigrationTableExists wDb1)).Nodup ∧
    ((∃ n ∈ getExecutedMigrations (ensureMigrationTableExists wDb1),
        ∀ m ∈ resolveMigrations ([] : List (NamedMigration Nat String)),
          ¬m.name = n) ∨
      (wPempty.allowUnorderedMigrations = false ∧
        ¬getExecutedMigrations (ensureMigrationTableExists wDb1) =
          ((resolveMigrations ([] : List (NamedMigration Nat String))).map
            (·.name)).take
            (getExecutedMigrations (ensureMigrationTableExists wDb1)).length)) ∧
    ∃ er, IsCorrupted er ∧
      migrate wPempty wUpInf wDb1 = .ok
        ({ error := some er, results := none },
          ensureMigrationTableExists wDb1) :=
  ⟨rfl, by decide, by decide, corrupted_history_aborts rfl (by decide)
    (by decide)⟩

/-- C7: In every down batch, a candidate with no backward operation is
skipped: its result entry is its `downResult`, which is `NotExecuted`, its
rows are not deleted from the log, and the skip never aborts the batch — a
batch abort is always caused by a candidate that has a backward operation,
and skipped candidates before the abort still report `NotExecuted`.
(Candidate names are pairwise distinct because `name` is the log table's
primary key.) -/
theorem down_skip_without_backward {db : Db σ} {state : MigrationState σ E}
    {step : StepCount} {cands : List (NamedMigration σ E)}
    (hbuild : buildRollback state step = some cands)
    (hnodup : (cands.map (·.name)).Nodup) :
    (∀ rs db2, migrateDown db state step = .ok (rs, db2) →
      rs.results = some (cands.map downResult) ∧
      ∀ m ∈ cands, m.down = none →
        downResult m = ⟨m.name, .Down, .NotExecuted⟩ ∧
        ∀ r ∈ db.log, r.name = m.name → r ∈ db2.log) ∧
    (∀ t, migrateDown db state step = .error t →
      ∃ (pre : List (NamedMigration σ E)) (m : NamedMigration σ E)
        (rest : List (NamedMigration σ E)) (e : E),
      cands = pre ++ m :: rest ∧ m.down.isSome = true ∧
      t = .resultSetErr
        { error := some (.user e)
          results := some (pre.map downResult ++ ⟨m.name, .Down, .Error⟩ ::
            rest.map fun m2 => ⟨m2.name, .Down, .NotExecuted⟩) } ∧
      ∀ m2 ∈ pre, m2.down = none →
        downResult m2 = ⟨m2.name, .Down, .NotExecuted⟩) := by
  constructor
  · intro rs db2 hok
    obtain ⟨cands2, hb2, hrs, hlog, _⟩ := migrateDown_ok hok
    rw [hbuild] at hb2
    simp only [Option.some.injEq] at hb2
    subst hb2
    refine ⟨by rw [hrs], fun m hm hmdown => ⟨by simp [downResult, hmdown], ?_⟩⟩
    intro r hr hrname
    have hnotmem : r.name ∉ downedNames cands := by
      intro hmem
      unfold downedNames at hmem
      obtain ⟨m2, hm2f, hname2⟩ := List.mem_map.mp hmem
      obtain ⟨hm2, hm2some⟩ := List.mem_filter.mp hm2f
      have heq : m2 = m :=
        List.inj_on_of_nodup_map hnodup hm2 hm (by rw [hname2, hrname])
      rw [heq, hmdown] at hm2some
      simp at hm2some
    rw [hlog]
    exact List.mem_filter.mpr ⟨hr, by simp [hnotmem]⟩
  · intro t herr2
    rcases migrateDown_err herr2 with
      ⟨hb2, _⟩ | ⟨cands2, pre, m, rest, e, hb2, hsplit, hsome, hshape⟩
    · rw [hbuild] at hb2
      exact absurd hb2 (by simp)
    · rw [hbuild] at hb2
      simp only [Option.some.injEq] at hb2
      subst hb2
      exact ⟨pre, m, rest, e, hsplit, hsome, hshape,
        fun m2 _ h2 => by simp [downResult, h2]⟩

/-- C7 witness: rolling back one step over the state whose only executed
migration `001_a` lacks a backward operation — the batch completes with a
`NotExecuted` entry and the log row kept. -/
theorem down_skip_without_backward_witness :
    buildRollback wStateSkip (.num 1) = some [wMigA] ∧
    ([wMigA].map (·.name)).Nodup ∧
    ((∀ rs db2, migrateDown wDb1 wStateSkip (.num 1) = .ok (rs, db2) →
      rs.results = some ([wMigA].map downResult) ∧
      ∀ m ∈ [wMigA], m.down = none →
        downResult m = ⟨m.name, .Down, .NotExecuted⟩ ∧
        ∀ r ∈ wDb1.log, r.name = m.name → r ∈ db2.log) ∧
    (∀ t, migrateDown wDb1 wStateSkip (.num 1) = .error t →
      ∃ (pre : List (NamedMigration Nat String))
        (m : NamedMigration Nat String)
        (rest : List (NamedMigration Nat String)) (e : String),
      [wMigA] = pre ++ m :: rest ∧ m.down.isSome = true ∧
      t = .resultSetErr
        { error := some (.user e)
          results := some (pre.map downResult ++ ⟨m.name, .Down, .Error⟩ ::
            rest.map fun m2 => ⟨m2.name, .Down, .NotExecuted⟩) } ∧
      ∀ m2 ∈ pre, m2.down = none →
        downResult m2 = ⟨m2.name, .Down, .NotExecuted⟩)) := by
  have hb : buildRollback wStateSkip (.num 1) = some [wMigA] := rfl
  exact ⟨hb, by decide, down_skip_without_backward hb (by decide)⟩

/-- C6: For every down batch with step `n`, the executed names are read from
the log ordered by timestamp first and name second (a sorted permutation of
the log rows), the candidate list is the last `n` entries of
`executedNames` reversed (most recently executed first), and each candidate
is resolved back to its full migration record from the sorted migration
list. -/
theorem buildRollback_total {P : MigratorProps σ E} {db : Db σ}
    {state : MigrationState σ E} (h : getState P db = .ok state)
    (step : StepCount) :
    ∃ cands, buildRollback state step = some cands := by
  obtain ⟨l, _, _, _, _, _, hmiss, _⟩ := getState_ok h
  have hfind : ∀ n ∈ state.executedMigrations,
      ∃ m ∈ state.migrations, m.name = n :=
    (ensureNoMissingMigrations_ok_iff _ _).mp hmiss
  unfold buildRollback
  apply mapM_find?_isSome
  intro n hn
  apply hfind
  have hrev : n ∈ state.executedMigrations.reverse := by
    cases step with
    | inf => exact hn
    | num k => exact List.mem_of_mem_take hn
  exact List.mem_reverse.mp hrev

theorem down_candidates_spec {P : MigratorProps σ E} {db : Db σ}
    {state : MigrationState σ E} (h : getState P db = .ok state) (n : Nat) :
    (∃ rows : List LogRow, rows.Perm db.log ∧ rows.Pairwise RowLe ∧
      state.executedMigrations = rows.map (·.name)) ∧
    ∃ cands, buildRollback state (.num (n : Int)) = some cands ∧
      cands.map (·.name) =
        (state.executedMigrations.drop
          (state.executedMigrations.length - n)).reverse ∧
      ∀ m ∈ cands, m ∈ state.migrations := by
  obtain ⟨l, _, _, hexec, _, _, hmiss, _⟩ := getState_ok h
  constructor
  · exact ⟨sortedLog db.log, sortedLog_perm _, sortedLog_sorted _,
      by rw [hexec]; rfl⟩
  · obtain ⟨cands, hc⟩ := buildRollback_total h (.num (n : Int))
    obtain ⟨hnames, hmem⟩ := mapM_find?_some _ _ _ hc
    refine ⟨cands, hc, ?_, hmem⟩
    rw [hnames]
    show List.take ((n : Int)).toNat state.executedMigrations.reverse =
      (state.executedMigrations.drop
        (state.executedMigrations.length - n)).reverse
    rw [show ((n : Int)).toNat = n from by simp, List.take_reverse]

/-- C6 witness: with `001_a` executed, the one-step down candidate list is
`[001_a]` resolved to its full record. -/
theorem down_candidates_spec_witness :
    getState wPab wDb1 = .ok
      (⟨[wMigADown, wMigB], ["001_a"], some "001_a", [wMigB]⟩ :
        MigrationState Nat String) ∧
    ((∃ rows : List LogRow, rows.Perm wDb1.log ∧ rows.Pairwise RowLe ∧
      (⟨[wMigADown, wMigB], ["001_a"], some "001_a", [wMigB]⟩ :
        MigrationState Nat String).executedMigrations =
          rows.map (·.name)) ∧
    ∃ cands, buildRollback
        (⟨[wMigADown, wMigB], ["001_a"], some "001_a", [wMigB]⟩ :
          MigrationState Nat String) (.num ((1 : Nat) : Int)) = some cands ∧
      cands.map (·.name) =
        ((⟨[wMigADown, wMigB], ["001_a"], some "001_a", [wMigB]⟩ :
          MigrationState Nat String).executedMigrations.drop
          ((⟨[wMigADown, wMigB], ["001_a"], some "001_a", [wMigB]⟩ :
            MigrationState Nat String).executedMigrations.length -
              1)).reverse ∧
      ∀ m ∈ cands, m ∈
        (⟨[wMigADown, wMigB], ["001_a"], some "001_a", [wMigB]⟩ :
          MigrationState Nat String).migrations) := by
  have h : getState wPab wDb1 = .ok
      (⟨[wMigADown, wMigB], ["001_a"], some "001_a", [wMigB]⟩ :
        MigrationState Nat String) := rfl
  exact ⟨h, down_candidates_spec h 1⟩

theorem ensure_tableExists (db : Db σ) :
    (ensureMigrationTableExists db).tableExists = true := by
  unfold ensureMigrationTableExists
  split
  next h => exact h
  next h => rfl

theorem ensure_clock (db : Db σ) :
    (ensureMigrationTableExists db).clock = db.clock := by
  unfold ensureMigrationTableExists
  split <;> rfl

theorem ensure_tsOf (db : Db σ) :
    (ensureMigrationTableExists db).tsOf = db.tsOf := by
  unfold ensureMigrationTableExists
  split <;> rfl

theorem checkOrder_of_unordered {P : MigratorProps σ E}
    {migs : List (NamedMigration σ E)} {execs : List String}
    (h : P.allowUnorderedMigrations = true) :
    checkOrder P migs execs = .ok () := by
  unfold checkOrder
  rw [h]
  simp

theorem checkOrder_of_ordered {P : MigratorProps σ E}
    {migs : List (NamedMigration σ E)} {execs : List String}
    (h : P.allowUnorderedMigrations = false)
    (h2 : ensureMigrationsInOrder 0 migs execs = .ok ()) :
    checkOrder P migs execs = .ok () := by
  unfold checkOrder
  rw [h]
  simpa using h2

theorem getState_ok_of {P : MigratorProps σ E} {db : Db σ}
    {l : List (NamedMigration σ E)}
    (hprov : P.getMigrations = .ok l)
    (hmiss : ensureNoMissingMigrations (resolveMigrations l)
      (getExecutedMigrations db) = .ok ())
    (hord : checkOrder P (resolveMigrations l)
      (getExecutedMigrations db) = .ok ()) :
    getState P db = .ok
      { migrations := resolveMigrations l
        executedMigrations := getExecutedMigrations db
        lastMigration := (getExecutedMigrations db).getLast?
        pendingMigrations := getPendingMigrations (resolveMigrations l)
          (getExecutedMigrations db) } := by
  unfold getState
  rw [hprov]
  dsimp only
  rw [hmiss]
  dsimp only
  rw [hord]

theorem runMigrations_of_empty {P : MigratorProps σ E}
    {f : MigrationState σ E → MigrationDirection × StepCount} {db : Db σ}
    {state : MigrationState σ E} (hs : getState P db = .ok state)
    (hlen : state.migrations.length = 0) :
    runMigrations P f db = .ok ({ results := some [] }, db) := by
  unfold runMigrations
  rw [hs]
  dsimp only
  rw [if_pos hlen]

theorem runMigrations_up_run {P : MigratorProps σ E}
    {f : MigrationState σ E → MigrationDirection × StepCount} {db : Db σ}
    {state : MigrationState σ E} {step : StepCount}
    (hs : getState P db = .ok state)
    (hlen : ¬state.migrations.length = 0)
    (hf : f state = (.Up, step)) (hstep : step.isNonpositive = false) :
    runMigrations P f db = migrateUp db state step := by
  unfold runMigrations
  rw [hs]
  dsimp only
  rw [if_neg hlen, hf]
  dsimp only
  rw [hstep]
  simp

theorem migrateUp_nil {db : Db σ} {state : MigrationState σ E}
    (hp : state.pendingMigrations = []) :
    migrateUp db state .inf = .ok ({ results := some [] }, db) := by
  have h2 : migrateUp db state .inf = migrateUp db
      { state with pendingMigrations := [] } .inf := by
    rw [← hp]
  rw [h2]
  rfl

theorem migrate_of_run_ok {P : MigratorProps σ E}
    {f : MigrationState σ E → MigrationDirection × StepCount} {db : Db σ}
    {rs : MigrationResultSet E} {db2 : Db σ}
    (h : runMigrations P f (ensureMigrationTableExists db) = .ok (rs, db2)) :
    migrate P f db = .ok (rs, db2) := by
  unfold migrate
  dsimp only
  rw [h]

theorem mem_getExecutedMigrations {db : Db σ} {n : String} :
    n ∈ getExecutedMigrations db ↔ n ∈ db.log.map (·.name) := by
  unfold getExecutedMigrations
  exact ((sortedLog_perm db.log).map (·.name)).mem_iff

theorem upRows_map_name {tsOf : Nat → String} :
    ∀ (c : Nat) (ms : List (NamedMigration σ E)),
    (upRows tsOf c ms).map (·.name) = ms.map (·.name)
  | _, [] => rfl
  | c, m :: rest => by
    simp only [upRows, List.map_cons, List.cons.injEq, true_and]
    exact upRows_map_name (c + 1) rest

theorem upRows_mem {tsOf : Nat → String} :
    ∀ {c : Nat} {ms : List (NamedMigration σ E)} {r : LogRow},
    r ∈ upRows tsOf c ms →
    ∃ m k, m ∈ ms ∧ c ≤ k ∧ r = ⟨m.name, tsOf k⟩
  | c, [], r, h => by simp [upRows] at h
  | c, m :: rest, r, h => by
    rcases List.mem_cons.mp h with h | h
    · exact ⟨m, c, List.mem_cons_self _ _, le_refl c, h⟩
    · obtain ⟨m2, k, hm2, hk, hr⟩ := upRows_mem h
      exact ⟨m2, k, List.mem_cons_of_mem _ hm2, by omega, hr⟩

theorem upRows_sorted {tsOf : Nat → String} :
    ∀ {ms : List (NamedMigration σ E)} (c : Nat),
    (∀ i j, c ≤ i → i ≤ j → strLe (tsOf i) (tsOf j) = true) →
    (ms.map (·.name)).Pairwise (fun a b => strLe a b = true) →
    (upRows tsOf c ms).Pairwise RowLe
  | [], _, _, _ => List.Pairwise.nil
  | m :: rest, c, hm, hp => by
    rw [List.map_cons, List.pairwise_cons] at hp
    refine List.Pairwise.cons (fun s hs => ?_)
      (upRows_sorted (c + 1) (fun i j hi hij => hm i j (by omega) hij) hp.2)
    obtain ⟨m2, k, hm2, hk, hr⟩ := upRows_mem hs
    rw [hr]
    unfold RowLe rowLe
    split
    · exact hp.1 m2.name (List.mem_map.mpr ⟨m2, hm2, rfl⟩)
    · exact hm c k (le_refl c) (by omega)

theorem runMigrations_ok_inv {P : MigratorProps σ E}
    {f : MigrationState σ E → MigrationDirection × StepCount} {db : Db σ}
    {rs : MigrationResultSet E} {db2 : Db σ}
    (h : runMigrations P f db = .ok (rs, db2)) :
    ∃ state, getState P db = .ok state ∧
    ((state.migrations.length = 0 ∧ rs = { results := some [] } ∧
        db2 = db) ∨
      ∃ direction step, f state = (direction, step) ∧
        ¬state.migrations.length = 0 ∧
        ((step.isNonpositive = true ∧ rs = { results := some [] } ∧
            db2 = db) ∨
          (step.isNonpositive = false ∧ direction = .Down ∧
            migrateDown db state step = .ok (rs, db2)) ∨
          (step.isNonpositive = false ∧ direction = .Up ∧
            migrateUp db state step = .ok (rs, db2)))) := by
  unfold runMigrations at h
  split at h
  next e hstate => exact absurd h (by simp)
  next state hstate =>
    refine ⟨state, hstate, ?_⟩
    split at h
    next hlen =>
      simp only [Except.ok.injEq, Prod.mk.injEq] at h
      exact .inl ⟨hlen, h.1.symm, h.2.symm⟩
    next hlen =>
      split at h
      next direction step hf =>
        refine .inr ⟨direction, step, hf, hlen, ?_⟩
        split at h
        next hstep =>
          simp only [Except.ok.injEq, Prod.mk.injEq] at h
          exact .inl ⟨hstep, h.1.symm, h.2.symm⟩
        next hstep =>
          rw [Bool.not_eq_true] at hstep
          split at h
          next => exact .inr (.inl ⟨hstep, rfl, h⟩)
          next => exact .inr (.inr ⟨hstep, rfl, h⟩)

theorem pending_names_cover (execs : List String)
    {migs : List (NamedMigration σ E)} {m : NamedMigration σ E}
    (hm : m ∈ migs) :
    m.name ∈ execs ∨ m ∈ getPendingMigrations migs execs := by
  by_cases hc : m.name ∈ execs
  · exact .inl hc
  · refine .inr (List.mem_filter.mpr ⟨hm, ?_⟩)
    simp [hc]

theorem pending_mem_migrations {migs : List (NamedMigration σ E)}
    {execs : List String} {m : NamedMigration σ E}
    (hm : m ∈ getPendingMigrations migs execs) : m ∈ migs :=
  (List.mem_filter.mp hm).1

theorem pending_eq_drop {migs : List (NamedMigration σ E)}
    {execs : List String}
    (hnodup : (migs.map (·.name)).Nodup)
    (hexec : execs = (migs.map (·.name)).take execs.length) :
    getPendingMigrations migs execs = migs.drop execs.length := by
  unfold getPendingMigrations
  have hsplit := List.take_append_drop execs.length migs
  have hdisj : ∀ a ∈ (migs.map (·.name)).take execs.length,
      a ∉ (migs.map (·.name)).drop execs.length := by
    rw [← List.take_append_drop execs.length (migs.map (·.name))] at hnodup
    intro a ha ha2
    rcases List.nodup_append.mp hnodup with ⟨_, _, hd⟩
    exact hd ha ha2
  conv_lhs => rw [← hsplit]
  rw [List.filter_append]
  have h1 : (migs.take execs.length).filter
      (fun migration => !(execs.contains migration.name)) = [] := by
    rw [List.filter_eq_nil_iff]
    intro m hm
    have : m.name ∈ execs := by
      rw [hexec, ← List.map_take]
      exact List.mem_map.mpr ⟨m, hm, rfl⟩
    simp [this]
  have h2 : (migs.drop execs.length).filter
      (fun migration => !(execs.contains migration.name)) =
      migs.drop execs.length := by
    rw [List.filter_eq_self]
    intro m hm
    have hnot : m.name ∉ execs := by
      intro hmem
      refine hdisj m.name ?_ ?_
      · rw [hexec] at hmem
        exact hmem
      · rw [← List.map_drop]
        exact List.mem_map.mpr ⟨m, hm, rfl⟩
    simp [hnot]
  rw [h1, h2, List.nil_append]

theorem sortedLog_append_upRows {log : List LogRow} {tsOf : Nat → String}
    {c : Nat} {ms : List (NamedMigration σ E)}
    (hfresh : ∀ r ∈ log, ∀ k, c ≤ k → strLe r.timestamp (tsOf k) = true)
    (hmono : ∀ i j, c ≤ i → i ≤ j → strLe (tsOf i) (tsOf j) = true)
    (hnames : (ms.map (·.name)).Pairwise (fun a b => strLe a b = true))
    (hcross : ∀ a ∈ (sortedLog log).map (·.name), ∀ b ∈ ms.map (·.name),
      strLe a b = true) :
    sortedLog (log ++ upRows tsOf c ms) =
      sortedLog log ++ upRows tsOf c ms := by
  haveI : IsAntisymm LogRow RowLe := ⟨fun _ _ => rowLe_antisymm⟩
  refine List.eq_of_perm_of_sorted ?_ (sortedLog_sorted _) ?_
  · exact (sortedLog_perm _).trans
      (List.Perm.append_right _ (sortedLog_perm log).symm)
  · show (sortedLog log ++ upRows tsOf c ms).Pairwise RowLe
    rw [List.pairwise_append]
    refine ⟨sortedLog_sorted log, upRows_sorted c hmono hnames, ?_⟩
    intro a ha b hb
    obtain ⟨m, k, hm, hk, hbeq⟩ := upRows_mem hb
    subst hbeq
    unfold RowLe rowLe
    split
    · exact hcross a.name (List.mem_map.mpr ⟨a, ha, rfl⟩) m.name
        (List.mem_map.mpr ⟨m, hm, rfl⟩)
    · exact hfresh a ((sortedLog_perm log).mem_iff.mp ha) k hk

theorem prefix_append_drop {l1 l2 : List String}
    (h : l1 = l2.take l1.length) : l1 ++ l2.drop l1.length = l2 := by
  conv_rhs => rw [← List.take_append_drop l1.length l2]
  rw [← h]

theorem runMigrations_up_inf {P : MigratorProps σ E} {db : Db σ}
    {state : MigrationState σ E}
    (hs : getState P db = .ok state)
    (hlen : ¬state.migrations.length = 0) :
    runMigrations P (fun _ => (.Up, .inf)) db = migrateUp db state .inf :=
  runMigrations_up_run hs hlen rfl rfl

/-- C8 (amended): Calling `migrateToLatest` twice in a row with the
migration source unchanged and the first call succeeding yields, on the
second call, a result set with an empty results list and no error, and an
unchanged database — provided the migration names compare the same way
under the JS sort (UTF-16 code units) and under SQLite's memcmp tiebreak
(codepoint order), stated as: the JS-sorted name list is also
memcmp-sorted (`hagree`; true e.g. for any names within the Basic
Multilingual Plane).  Without that proviso the claim is false — see the
counterexample with names U+FFFF and U+10000 under colliding timestamps.
(The clock hypotheses say the wall clock does not run backwards: timestamps
already in the log are at most every timestamp the clock will produce, and
later ticks produce later timestamps; names are pairwise distinct in the
source mapping and in the log, whose primary key is `name`.) -/
theorem migrateToLatest_idempotent {P : MigratorProps σ E} {db0 : Db σ}
    {rs1 : MigrationResultSet E} {db1 : Db σ}
    {l : List (NamedMigration σ E)}
    (hprov : P.getMigrations = .ok l)
    (hnames : (l.map (·.name)).Nodup)
    (hagree : ((resolveMigrations l).map (·.name)).Pairwise
      (fun a b => strLe a b = true))
    (hfresh : ∀ r ∈ (ensureMigrationTableExists db0).log, ∀ k,
      db0.clock ≤ k → strLe r.timestamp (db0.tsOf k) = true)
    (hmono : ∀ i j, db0.clock ≤ i → i ≤ j →
      strLe (db0.tsOf i) (db0.tsOf j) = true)
    (h1 : migrateToLatest P db0 = .ok (rs1, db1))
    (herr : rs1.error = none) :
    migrateToLatest P db1 =
      .ok ({ error := none, results := some [] }, db1) := by
  have h1' : migrate P (fun _ => (.Up, .inf)) db0 = .ok (rs1, db1) := h1
  rcases migrate_cases P (fun _ => (.Up, .inf)) db0 with
    ⟨rs2, db3, hrun, hm⟩ | ⟨rs2, hrun, hm⟩ | ⟨e2, hrun, hm⟩
  case inr.inl =>
    rw [hm] at h1'
    simp only [Except.ok.injEq, Prod.mk.injEq] at h1'
    obtain ⟨⟨e, he⟩, _⟩ := runMigrations_err_rs hrun
    rw [h1'.1, herr] at he
    exact Option.noConfusion he
  case inr.inr =>
    rw [hm] at h1'
    simp only [Except.ok.injEq, Prod.mk.injEq] at h1'
    rw [← h1'.1] at herr
    exact Option.noConfusion herr
  rw [hm] at h1'
  simp only [Except.ok.injEq, Prod.mk.injEq] at h1'
  rw [h1'.1, h1'.2] at hrun
  obtain ⟨state0, hs0, hbr⟩ := runMigrations_ok_inv hrun
  obtain ⟨l0, hprov0, hmig0, hexec0, _, hpend0, hmiss0, hord0⟩ :=
    getState_ok hs0
  rw [hprov] at hprov0
  simp only [Except.ok.injEq] at hprov0
  subst hprov0
  rcases hbr with ⟨hlen, _, hdb⟩ | ⟨direction, step, hf, hlen, hbr2⟩
  · subst hdb
    have hout : migrate P (fun _ => (.Up, .inf))
        (ensureMigrationTableExists db0) =
        .ok ({ results := some [] }, ensureMigrationTableExists db0) := by
      apply migrate_of_run_ok
      rw [ensure_eq_self (ensure_tableExists db0)]
      exact runMigrations_of_empty hs0 hlen
    exact hout
  · have hf' : (MigrationDirection.Up, StepCount.inf) =
        (direction, step) := hf
    simp only [Prod.mk.injEq] at hf'
    obtain ⟨hdir, hstepeq⟩ := hf'
    subst hdir
    subst hstepeq
    rcases hbr2 with ⟨hstep, _, _⟩ | ⟨_, hdirbad, _⟩ | ⟨_, _, hup⟩
    · exact absurd hstep (by simp [StepCount.isNonpositive])
    · exact absurd hdirbad (by simp)
    · obtain ⟨hrs1, hlog1, hclock1, htab1, htsof1⟩ := migrateUp_ok hup
      have hslice : StepCount.inf.slice state0.pendingMigrations =
          state0.pendingMigrations := rfl
      rw [hslice, ensure_tsOf, ensure_clock] at hlog1
      have htab1' : db1.tableExists = true := by
        rw [htab1]
        exact ensure_tableExists db0
      have hmigsnodup : ((resolveMigrations l).map (·.name)).Nodup :=
        (((resolveMigrations_perm l).map (·.name)).nodup_iff).mpr hnames
      have hnamessorted : ((resolveMigrations l).map (·.name)).Pairwise
          (fun a b => strLe a b = true) := hagree
      have hmiss0' : ensureNoMissingMigrations (resolveMigrations l)
          (getExecutedMigrations (ensureMigrationTableExists db0)) =
          .ok () := by
        rw [← hmig0, ← hexec0]
        exact hmiss0
      have hpend0' : state0.pendingMigrations =
          getPendingMigrations (resolveMigrations l)
            (getExecutedMigrations (ensureMigrationTableExists db0)) := by
        rw [hpend0, hmig0, hexec0]
      have hcover1 : ∀ n ∈ getExecutedMigrations db1,
          ∃ m ∈ resolveMigrations l, m.name = n := by
        intro n hn
        rw [mem_getExecutedMigrations, hlog1, List.map_append,
          List.mem_append] at hn
        rcases hn with hn | hn
        · exact (ensureNoMissingMigrations_ok_iff _ _).mp hmiss0' n
            (mem_getExecutedMigrations.mpr hn)
        · rw [upRows_map_name] at hn
          obtain ⟨m, hm, hmn⟩ := List.mem_map.mp hn
          rw [hpend0'] at hm
          exact ⟨m, pending_mem_migrations hm, hmn⟩
      have hcover2 : ∀ m ∈ resolveMigrations l,
          m.name ∈ getExecutedMigrations db1 := by
        intro m hm
        rw [mem_getExecutedMigrations, hlog1, List.map_append,
          List.mem_append]
        rcases pending_names_cover
            (getExecutedMigrations (ensureMigrationTableExists db0))
            hm with hc | hc
        · exact .inl (mem_getExecutedMigrations.mp hc)
        · refine .inr ?_
          rw [upRows_map_name]
          refine List.mem_map.mpr ⟨m, ?_, rfl⟩
          rw [hpend0']
          exact hc
      have hmiss1 : ensureNoMissingMigrations (resolveMigrations l)
          (getExecutedMigrations db1) = .ok () :=
        (ensureNoMissingMigrations_ok_iff _ _).mpr hcover1
      have hpend1 : getPendingMigrations (resolveMigrations l)
          (getExecutedMigrations db1) = [] := by
        unfold getPendingMigrations
        rw [List.filter_eq_nil_iff]
        intro m hm
        simp [hcover2 m hm]
      have hord1 : checkOrder P (resolveMigrations l)
          (getExecutedMigrations db1) = .ok () := by
        cases hu : P.allowUnorderedMigrations with
        | true => exact checkOrder_of_unordered hu
        | false =>
          have hordpass : ensureMigrationsInOrder 0 (resolveMigrations l)
              (getExecutedMigrations (ensureMigrationTableExists db0)) =
              .ok () := by
            have := hord0 hu
            rw [hmig0, hexec0] at this
            exact this
          have hexecs0take :
              getExecutedMigrations (ensureMigrationTableExists db0) =
              ((resolveMigrations l).map (·.name)).take
                (getExecutedMigrations
                  (ensureMigrationTableExists db0)).length :=
            (ensureMigrationsInOrder_ok_iff _ _ _).mp hordpass
          have hpendd : getPendingMigrations (resolveMigrations l)
              (getExecutedMigrations (ensureMigrationTableExists db0)) =
              (resolveMigrations l).drop
                (getExecutedMigrations
                  (ensureMigrationTableExists db0)).length :=
            pending_eq_drop hmigsnodup hexecs0take
          have hpendnames : state0.pendingMigrations.map (·.name) =
              ((resolveMigrations l).map (·.name)).drop
                (getExecutedMigrations
                  (ensureMigrationTableExists db0)).length := by
            rw [hpend0', hpendd, List.map_drop]
          have hcross : ∀ a ∈ (sortedLog
                (ensureMigrationTableExists db0).log).map (·.name),
              ∀ b ∈ state0.pendingMigrations.map (·.name),
              strLe a b = true := by
            intro a ha b hb
            rw [hpendnames] at hb
            have ha' : a ∈ ((resolveMigrations l).map (·.name)).take
                (getExecutedMigrations
                  (ensureMigrationTableExists db0)).length := by
              rw [← hexecs0take]
              exact ha
            have hpw := hnamessorted
            rw [← List.take_append_drop
              (getExecutedMigrations
                (ensureMigrationTableExists db0)).length
              ((resolveMigrations l).map (·.name))] at hpw
            exact (List.pairwise_append.mp hpw).2.2 a ha' b hb
          have hpendsorted : (state0.pendingMigrations.map (·.name)).Pairwise
              (fun a b => strLe a b = true) := by
            rw [hpendnames]
            exact hnamessorted.sublist (List.drop_sublist _ _)
          have hD1 : sortedLog db1.log =
              sortedLog (ensureMigrationTableExists db0).log ++
                upRows db0.tsOf db0.clock state0.pendingMigrations := by
            rw [hlog1]
            exact sortedLog_append_upRows hfresh hmono hpendsorted hcross
          have hexecs1 : getExecutedMigrations db1 =
              (resolveMigrations l).map (·.name) := by
            show (sortedLog db1.log).map (·.name) = _
            rw [hD1, List.map_append, upRows_map_name]
            show getExecutedMigrations (ensureMigrationTableExists db0) ++
              state0.pendingMigrations.map (·.name) = _
            rw [hpendnames]
            exact prefix_append_drop hexecs0take
          apply checkOrder_of_ordered hu
          rw [ensureMigrationsInOrder_ok_iff, hexecs1, List.take_length]
      have hs1 := getState_ok_of hprov hmiss1 hord1
      have hlen1 : ¬(resolveMigrations l).length = 0 := by
        rw [← hmig0]
        exact hlen
      have hout : migrate P (fun _ => (.Up, .inf)) db1 =
          .ok ({ results := some [] }, db1) := by
        apply migrate_of_run_ok
        rw [ensure_eq_self htab1']
        rw [runMigrations_up_inf hs1 hlen1]
        exact migrateUp_nil hpend1
      exact hout

/-- C8 witness: a fresh database and a one-migration source (an ASCII name,
so JS order and memcmp order agree) — the first `migrateToLatest` applies
`001_a`, the second returns an empty results list with no error and an
unchanged database. -/
theorem migrateToLatest_idempotent_witness :
    wPa.getMigrations = .ok [wMigA] ∧
    (([wMigA] : List (NamedMigration Nat String)).map (·.name)).Nodup ∧
    ((resolveMigrations [wMigA]).map (·.name)).Pairwise
      (fun a b => strLe a b = true) ∧
    (∀ r ∈ (ensureMigrationTableExists wDb0).log, ∀ k : Nat,
      wDb0.clock ≤ k → strLe r.timestamp (wDb0.tsOf k) = true) ∧
    (∀ i j : Nat, wDb0.clock ≤ i → i ≤ j →
      strLe (wDb0.tsOf i) (wDb0.tsOf j) = true) ∧
    migrateToLatest wPa wDb0 = .ok
      ({ error := none, results := some [⟨"001_a", .Up, .Success⟩] },
        (⟨true, [⟨"001_a", "ts"⟩], 1, fun _ => "ts", 1⟩ : Db Nat)) ∧
    ({ error := none, results := some [⟨"001_a", .Up, .Success⟩] } :
      MigrationResultSet String).error = none ∧
    migrateToLatest wPa
        (⟨true, [⟨"001_a", "ts"⟩], 1, fun _ => "ts", 1⟩ : Db Nat) =
      .ok ({ error := none, results := some [] },
        (⟨true, [⟨"001_a", "ts"⟩], 1, fun _ => "ts", 1⟩ : Db Nat)) := by
  have hprov : wPa.getMigrations = .ok [wMigA] := rfl
  have hagree : ((resolveMigrations [wMigA]).map (·.name)).Pairwise
      (fun a b => strLe a b = true) := by decide
  have h1 : migrateToLatest wPa wDb0 = .ok
      ({ error := none, results := some [⟨"001_a", .Up, .Success⟩] },
        (⟨true, [⟨"001_a", "ts"⟩], 1, fun _ => "ts", 1⟩ : Db Nat)) := rfl
  have hfresh : ∀ r ∈ (ensureMigrationTableExists wDb0).log, ∀ k : Nat,
      wDb0.clock ≤ k → strLe r.timestamp (wDb0.tsOf k) = true := by
    intro r hr
    exact absurd hr (List.not_mem_nil r)
  have hmono : ∀ i j : Nat, wDb0.clock ≤ i → i ≤ j →
      strLe (wDb0.tsOf i) (wDb0.tsOf j) = true :=
    fun _ _ _ _ => strLe_refl "ts"
  exact ⟨hprov, by decide, hagree, hfresh, hmono, h1, rfl,
    migrateToLatest_idempotent hprov (by decide) hagree hfresh hmono h1 rfl⟩

/-- C8 counterexample: the claim as stated is false on the code.  Source
names U+FFFF and U+10000 (JS sorts U+10000 first; memcmp sorts it last)
with a constant clock: the first `migrateToLatest` succeeds and logs both
migrations with equal timestamps, but the second call's executed names come
back in memcmp order, fail `ensureMigrationsInOrder`, and the call returns
a corrupted-history error instead of an empty results list. -/
theorem migrateToLatest_idempotent_counterexample :
    migrateToLatest cPsup wDb0 = .ok
      ({ error := none
         results := some [⟨String.mk [Char.ofNat 65536], .Up, .Success⟩,
           ⟨"￿", .Up, .Success⟩] }, cDb1) ∧
    ({ error := none
       results := some [⟨String.mk [Char.ofNat 65536], .Up, .Success⟩,
         ⟨"￿", .Up, .Success⟩] } :
      MigrationResultSet String).error = none ∧
    migrateToLatest cPsup cDb1 = .ok
      ({ error := some (.migrationOutOfOrder "￿" 0), results := none },
        cDb1) ∧
    ¬migrateToLatest cPsup cDb1 = .ok
      ({ error := none, results := some [] }, cDb1) := by
  refine ⟨rfl, rfl, rfl, fun h => ?_⟩
  rw [show migrateToLatest cPsup cDb1 = .ok
      ({ error := some (.migrationOutOfOrder "￿" 0), results := none },
        cDb1) from rfl] at h
  simp at h
